import Mathlib

/-!
Verification of the skip list implemented in `src/lib.rs`.

The heap of `Box`ed nodes is modelled as a list of node records indexed by
natural numbers; index `0` is the head sentinel owned by the list.  A
`NonNull` pointer becomes a heap index, an `Option<NonNull<..>>` link becomes
an `Option Nat`.  Every operation that can panic in a debug build (failed
`assert!`, arithmetic underflow, shift overflow, out-of-bounds indexing) is
modelled as returning `none`; loops are driven by explicit fuel, so a
traversal of a corrupted (cyclic) heap also yields `none`.  The
`fastrand::Rng` state is replaced by passing each drawn 64-bit machine word
explicitly.
-/

set_option linter.unusedVariables false

namespace SkipListModel

/-- Model of `Link<T, NUM_LEVELS>`: `some i` points at the node stored at
heap index `i`, `none` is a null link. -/
abbrev Link := Option Nat

/-- Model of `SkipListNode<T, NUM_LEVELS>`: tower height `level`, optional
stored value (`none` exactly for the head sentinel), backward link `prev`,
and the forward-link array `next` of length `NUM_LEVELS`. -/
structure SkipListNode (α : Type) where
  level : Nat
  val : Option α
  prev : Link
  next : List Link
deriving DecidableEq

/-- Model of `SkipList<T, NUM_LEVELS>`: the const generic `NUM_LEVELS`
becomes the field `numLevels`, `nodes` is the heap with the head at index
`0`, and `len` is the length counter. -/
structure SkipList (α : Type) where
  numLevels : Nat
  nodes : List (SkipListNode α)
  len : Nat
deriving DecidableEq

variable {α : Type}

/-- Dereference a heap index (a dangling index is a model-level error). -/
def getNode (s : SkipList α) (i : Nat) : Option (SkipListNode α) :=
  s.nodes[i]?

/-- Model of `SkipListNode::next_if`, heap-indexed.  The outer `none` models
a panic (`assert!(level < NUM_LEVELS)` failing, or a dangling pointer); the
inner value is `some j` when the call returns `Ok(next)` pointing at node
`j`, and `none` when it returns `Err(self)`. -/
def next_if (s : SkipList α) (i level : Nat)
    (f : SkipListNode α → SkipListNode α → Bool) : Option (Option Nat) :=
  if level < s.numLevels then
    match getNode s i with
    | none => none
    | some curr =>
      match curr.next[level]? with
      | none => none
      | some none => some none
      | some (some j) =>
        match getNode s j with
        | none => none
        | some nxt => some (if f curr nxt then some j else none)
  else none

/-- Fuelled loop body shared by `proceed_at_level_while` and its `_mut`
variant: keep advancing through `next_if` until it returns `Err`. -/
def proceedAux (s : SkipList α) (f : SkipListNode α → SkipListNode α → Bool)
    (level : Nat) : Nat → Nat → Option Nat
  | 0, _ => none
  | fuel + 1, i =>
    match next_if s i level f with
    | none => none
    | some (some j) => proceedAux s f level fuel j
    | some none => some i

/-- Model of `SkipListNode::proceed_at_level_while` (and of
`proceed_at_level_while_mut`, which has identical logic).  The fuel
`s.nodes.length` suffices on any acyclic heap. -/
def proceed_at_level_while (s : SkipList α) (i level : Nat)
    (f : SkipListNode α → SkipListNode α → Bool) : Option Nat :=
  if level < s.numLevels then proceedAux s f level s.nodes.length i else none

/-- The traversal closure used by `find_node`, `find_node_mut` and `insert`:
advance onto `next` exactly when it holds a value `v2` with `item >= v2`. -/
def goPred [LinearOrder α] (item : α) :
    SkipListNode α → SkipListNode α → Bool :=
  fun _ nxt =>
    match nxt.val with
    | some v2 => decide (v2 ≤ item)
    | none => false

/-- The `for level in (0..NUM_LEVELS).rev()` loop of `find_node`: the
second numeric argument is the number of levels still to visit, so the next
level visited is that number minus one. -/
def findLoop [LinearOrder α] (s : SkipList α) (item : α) :
    Nat → Nat → Option Nat
  | i, 0 => some i
  | i, l + 1 =>
    match proceed_at_level_while s i l (goPred item) with
    | none => none
    | some j => findLoop s item j l

/-- Model of `SkipList::find_node` (and of `find_node_mut`, identical
logic): descend from level `NUM_LEVELS - 1` to level `0` starting at the
head, returning the index of the landing node. -/
def find_node [LinearOrder α] (s : SkipList α) (item : α) : Option Nat :=
  findLoop s item 0 s.numLevels

/-- Model of `SkipList::find`. -/
def find [LinearOrder α] (s : SkipList α) (item : α) : Option (Option α) :=
  match find_node s item with
  | none => none
  | some i =>
    match getNode s i with
    | none => none
    | some node =>
      match node.val with
      | some v => some (if v = item then some v else none)
      | none => some none

/-- Model of `SkipList::contains`. -/
def contains [LinearOrder α] (s : SkipList α) (item : α) : Option Bool :=
  (find s item).map Option.isSome

/-- Debug-build `usize` subtraction: underflow panics. -/
def checkedSub (a b : Nat) : Option Nat :=
  if b ≤ a then some (a - b) else none

/-- Debug-build `1usize << sh`: a shift by the 64-bit word width or more
panics. -/
def checkedShl1 (sh : Nat) : Option Nat :=
  if sh < 64 then some (2 ^ sh) else none

/-- Fuelled helper for `trailingOnes`; the value strictly decreases while
its low bit is set, so any fuel above the argument is enough. -/
def trailingOnesAux : Nat → Nat → Nat
  | 0, _ => 0
  | fuel + 1, n => if n % 2 = 1 then trailingOnesAux fuel (n / 2) + 1 else 0

/-- Model of the `trailing_ones` machine primitive: the number of
consecutive one bits at the low end of a natural number. -/
def trailingOnes (n : Nat) : Nat :=
  trailingOnesAux (n + 1) n

/-- Model of `SkipList::gen_level`, with the drawn machine word `rand`
passed explicitly; `self.rng.usize(..)` yields a 64-bit word, hence the
reduction modulo `2 ^ 64`. -/
def gen_level (numLevels rand : Nat) : Option Nat :=
  match checkedSub numLevels 1 with
  | none => none
  | some maxLevel =>
    match checkedShl1 maxLevel with
    | none => none
    | some pow => some (trailingOnes ((rand % 2 ^ 64) &&& (pow - 1)))

/-- Model of `SkipListNode::new_head`. -/
def new_head (α : Type) (numLevels : Nat) : Option (SkipListNode α) :=
  match checkedSub numLevels 1 with
  | none => none
  | some l => some ⟨l, none, none, List.replicate numLevels none⟩

/-- Model of `SkipList::new`. -/
def new (α : Type) (numLevels : Nat) : Option (SkipList α) :=
  match new_head α numLevels with
  | none => none
  | some h => some ⟨numLevels, [h], 0⟩

/-- Read `node.next[k]` of the node at heap index `i`. -/
def getNextLink (s : SkipList α) (i k : Nat) : Option Link :=
  match getNode s i with
  | none => none
  | some n => n.next[k]?

/-- Write `node.next[k]` of the node at heap index `i`. -/
def setNext (s : SkipList α) (i k : Nat) (lnk : Link) : Option (SkipList α) :=
  match getNode s i with
  | none => none
  | some n =>
    if k < n.next.length then
      some { s with nodes := s.nodes.set i { n with next := n.next.set k lnk } }
    else none

/-- Write `node.prev` of the node at heap index `i`. -/
def setPrev (s : SkipList α) (i : Nat) (p : Link) : Option (SkipList α) :=
  match getNode s i with
  | none => none
  | some n => some { s with nodes := s.nodes.set i { n with prev := p } }

/-- The level-descending splice loop inside `SkipList::insert`.  The last
argument is the Rust `level` variable before its `level -= 1` decrement, so
an iteration at argument `l + 1` processes level `l`; reaching `0` would
underflow the decrement, hence `none`.  On the `break` it returns the final
state, the index of the level-0 predecessor (`node`) and the displaced
level-0 forward link (`old_next`). -/
def insertLoop [LinearOrder α] (s : SkipList α) (item : α)
    (newIdx newLevel : Nat) : Nat → Nat → Option (SkipList α × Nat × Link)
  | _, 0 => none
  | i, l + 1 =>
    match proceed_at_level_while s i l (goPred item) with
    | none => none
    | some j =>
      if l ≤ newLevel then
        match getNextLink s j l with
        | none => none
        | some oldNext =>
          match setNext s j l (some newIdx) with
          | none => none
          | some s1 =>
            match setNext s1 newIdx l oldNext with
            | none => none
            | some s2 =>
              if l = 0 then some (s2, j, oldNext)
              else insertLoop s2 item newIdx newLevel j l
      else insertLoop s item newIdx newLevel j l

/-- Model of `SkipList::insert`: draw the tower height, allocate the new
node at the end of the heap, run the splice loop from the head at the top
level, then repair the backward links at level 0. -/
def insert [LinearOrder α] (s : SkipList α) (item : α) (rand : Nat) :
    Option (SkipList α) :=
  match gen_level s.numLevels rand with
  | none => none
  | some newLevel =>
    let newIdx := s.nodes.length
    let s1 : SkipList α :=
      { s with nodes := s.nodes ++
          [⟨newLevel, some item, none, List.replicate s.numLevels none⟩] }
    match insertLoop s1 item newIdx newLevel 0 s1.numLevels with
    | none => none
    | some (s2, prevIdx, oldNext) =>
      match setPrev s2 newIdx (some prevIdx) with
      | none => none
      | some s3 =>
        match oldNext with
        | some j => setPrev s3 j (some newIdx)
        | none => some s3

/-- Run a finite sequence of insertions, each with its drawn machine word. -/
def insertAll [LinearOrder α] (s : SkipList α) :
    List (α × Nat) → Option (SkipList α)
  | [] => some s
  | (v, r) :: rest =>
    match insert s v r with
    | none => none
    | some s' => insertAll s' rest

/-- Collect the heap indices visited by following `next[k]` links from node
`i` (fuelled; `none` on a dangling link or a cycle). -/
def chainFrom (s : SkipList α) (k : Nat) : Nat → Nat → Option (List Nat)
  | 0, _ => none
  | fuel + 1, i =>
    match getNextLink s i k with
    | none => none
    | some (some j) =>
      match chainFrom s k fuel j with
      | none => none
      | some rest => some (i :: rest)
    | some none => some [i]

/-- The full level-`k` forward chain, starting at the head sentinel. -/
def levelChain (s : SkipList α) (k : Nat) : Option (List Nat) :=
  chainFrom s k s.nodes.length 0

/-- The stored value of the node at heap index `i`. -/
def valOf (s : SkipList α) (i : Nat) : Option α :=
  match getNode s i with
  | none => none
  | some n => n.val

/-- The tower height of the node at heap index `i` (default `0`). -/
def levelOf (s : SkipList α) (i : Nat) : Nat :=
  match getNode s i with
  | none => 0
  | some n => n.level

/-- The sequence of values stored along the level-0 forward chain from the
head sentinel (the valueless head itself contributes nothing). -/
def baseVals (s : SkipList α) : Option (List α) :=
  (levelChain s 0).map (fun L => L.filterMap (valOf s))

/-- Index-level reading of the traversal predicate: node `j` holds a value
that is `≤ item`. -/
def nodeTest [LinearOrder α] (s : SkipList α) (item : α) (j : Nat) : Bool :=
  match valOf s j with
  | some v => decide (v ≤ item)
  | none => false

/-- The list `L` is singly linked, in order, by the `next[k]` links: each
listed node's link points at the next listed node, and the last one is
null. -/
def linkedAt (s : SkipList α) (k : Nat) : List Nat → Bool
  | [] => true
  | [a] => getNextLink s a k == some none
  | a :: b :: t => (getNextLink s a k == some (some b)) && linkedAt s k (b :: t)

/-- The expected level-`k` chain: the head followed by the base-order
element nodes of tower height at least `k`. -/
def subAt (s : SkipList α) (ord : List Nat) (k : Nat) : List Nat :=
  (0 :: ord).filter (fun i => decide (k ≤ levelOf s i))

/-- The node at heap index `i` stores exactly the value/height pair `x`,
its height fits below `numLevels`, its link array has full width, and every
link strictly above its height is null. -/
def nodeOkAt [DecidableEq α] (s : SkipList α) (x : α × Nat) (i : Nat) : Bool :=
  match getNode s i with
  | none => false
  | some n =>
    (n.val == some x.1) && (n.level == x.2) &&
    decide (x.2 + 1 ≤ s.numLevels) && (n.next.length == s.numLevels) &&
    ((List.range s.numLevels).all fun j =>
      decide (j ≤ n.level) || (n.next.getD j none == none))

/-- The head sentinel holds no value, has the maximum tower height and a
full-width link array. -/
def headOk (s : SkipList α) : Bool :=
  match getNode s 0 with
  | none => false
  | some n =>
    n.val.isNone && (n.level == s.numLevels - 1) &&
    (n.next.length == s.numLevels)

/-- Structural representation invariant: the state `s` represents the
base-ordered sequence `xs` of (value, tower height) pairs, laid out at the
heap indices `ord`.  It packages: a positive level count, a well-formed
head, a heap holding exactly the head plus the listed nodes, sortedness of
the values, and for every level `k` the fact that the `next[k]` links
realise exactly the subchain of nodes of height `≥ k`. -/
def repOk [LinearOrder α] (s : SkipList α) (xs : List (α × Nat))
    (ord : List Nat) : Bool :=
  decide (1 ≤ s.numLevels) &&
  headOk s &&
  (ord.length == xs.length) &&
  (s.nodes.length == ord.length + 1) &&
  decide ((0 :: ord).Nodup) &&
  ((0 :: ord).all fun i => decide (i < s.nodes.length)) &&
  ((ord.zip xs).all fun p => nodeOkAt s p.2 p.1) &&
  decide (List.Pairwise (fun a b => a.1 ≤ b.1) xs) &&
  ((List.range s.numLevels).all fun k => linkedAt s k (subAt s ord k))

/-- Pure walk along a listed chain suffix: starting at `i`, keep stepping
onto the next listed node while it passes `nodeTest`. -/
def walkW [LinearOrder α] (s : SkipList α) (item : α) :
    Nat → List Nat → Nat
  | i, [] => i
  | i, j :: r => if nodeTest s item j then walkW s item j r else i

/-- Last element of a list of indices, with a default for the empty list. -/
def lastD : List Nat → Nat → Nat
  | [], d => d
  | a :: t, _ => lastD t a

/-- Length of the forward-link array of the node at heap index `i`. -/
def nextLenOf (s : SkipList α) (i : Nat) : Option Nat :=
  match getNode s i with
  | none => none
  | some n => some n.next.length

theorem lastD_append_cons (P : List Nat) (c : Nat) (S : List Nat) (d : Nat) :
    lastD (P ++ c :: S) d = lastD S c := by
  induction P generalizing d with
  | nil => rfl
  | cons a t ih => simpa [lastD] using ih a

theorem lastD_cases (l : List Nat) (d : Nat) :
    l = [] ∨ ∃ l', l = l' ++ [lastD l d] := by
  induction l generalizing d with
  | nil => exact Or.inl rfl
  | cons a t ih =>
    rcases ih a with h | ⟨l', h⟩
    · subst h
      exact Or.inr ⟨[], rfl⟩
    · refine Or.inr ⟨a :: l', ?_⟩
      show a :: t = a :: l' ++ [lastD (a :: t) d]
      simpa [lastD] using h

theorem lastD_mem_cons (l : List Nat) (d : Nat) : lastD l d ∈ d :: l := by
  induction l generalizing d with
  | nil => simp [lastD]
  | cons a t ih =>
    have := ih a
    simp only [lastD]
    rcases List.mem_cons.mp this with h | h
    · simp [h]
    · simp [h]

theorem takeWhile_append_of_all {p : Nat → Bool} :
    ∀ {B : List Nat}, (∀ x ∈ B, p x = true) → ∀ (D : List Nat),
    (B ++ D).takeWhile p = B ++ D.takeWhile p := by
  intro B
  induction B with
  | nil => intro _ D; simp
  | cons a t ih =>
    intro hB D
    have ha : p a = true := hB a (by simp)
    simp only [List.cons_append, List.takeWhile_cons, ha, if_true]
    rw [ih (fun x hx => hB x (by simp [hx])) D]

theorem takeWhile_eq_nil_of_all {p : Nat → Bool} {D : List Nat}
    (hD : ∀ x ∈ D, p x = false) : D.takeWhile p = [] := by
  cases D with
  | nil => rfl
  | cons a t => simp [List.takeWhile_cons, hD a (by simp)]

theorem walkW_eq_lastD [LinearOrder α] (s : SkipList α) (t : α) :
    ∀ (rest : List Nat) (i : Nat),
    walkW s t i rest = lastD (rest.takeWhile (nodeTest s t)) i := by
  intro rest
  induction rest with
  | nil => intro i; rfl
  | cons j r ih =>
    intro i
    by_cases h : nodeTest s t j
    · simp [walkW, h, List.takeWhile_cons, lastD, ih j]
    · simp [walkW, h, List.takeWhile_cons, lastD]

theorem zip_partner {β : Type} :
    ∀ {l1 : List Nat} {l2 : List β}, l1.length = l2.length →
    ∀ x ∈ l1, ∃ y, (x, y) ∈ l1.zip l2 := by
  intro l1
  induction l1 with
  | nil => intro l2 _ x hx; simp at hx
  | cons a t ih =>
    intro l2 hlen x hx
    cases l2 with
    | nil => simp at hlen
    | cons b t2 =>
      rcases List.mem_cons.mp hx with h | h
      · exact ⟨b, by simp [h]⟩
      · obtain ⟨y, hy⟩ := ih (by simpa using hlen) x h
        exact ⟨y, by simp [hy]⟩

theorem parallel_takeWhile {β : Type} {p : Nat → Bool} {q : β → Bool} :
    ∀ {l1 : List Nat} {l2 : List β}, l1.length = l2.length →
    (∀ x ∈ l1.zip l2, p x.1 = q x.2) →
    l1.takeWhile p = l1.take (l2.takeWhile q).length := by
  intro l1
  induction l1 with
  | nil => intro l2 _ _; simp
  | cons a t ih =>
    intro l2 hlen hpt
    cases l2 with
    | nil => simp at hlen
    | cons b t2 =>
      have hab : p a = q b := hpt (a, b) (by simp)
      by_cases hb : q b
      · simp only [List.takeWhile_cons, hb, hab, if_true, List.length_cons,
          List.take_succ_cons]
        rw [ih (by simpa using hlen) (fun x hx => hpt x (by simp [hx]))]
      · have : p a = false := by rw [hab]; exact Bool.not_eq_true _ |>.mp hb
        simp [List.takeWhile_cons, hb, this]

theorem parallel_dropWhile_false [LinearOrder α] {p : Nat → Bool} {t : α} :
    ∀ {l1 : List Nat} {l2 : List α}, l1.length = l2.length →
    (∀ x ∈ l1.zip l2, p x.1 = decide (x.2 ≤ t)) →
    l2.Pairwise (· ≤ ·) →
    ∀ x ∈ l1.dropWhile p, p x = false := by
  intro l1
  induction l1 with
  | nil => intro l2 _ _ _ x hx; simp at hx
  | cons a t1 ih =>
    intro l2 hlen hpt hsort x hx
    cases l2 with
    | nil => simp at hlen
    | cons b t2 =>
      have hab : p a = decide (b ≤ t) := hpt (a, b) (by simp)
      have hlen' : t1.length = t2.length := by simpa using hlen
      have hpt' : ∀ y ∈ t1.zip t2, p y.1 = decide (y.2 ≤ t) :=
        fun y hy => hpt y (by simp [hy])
      by_cases hb : (b ≤ t)
      · have : p a = true := by simp [hab, hb]
        rw [List.dropWhile_cons, this] at hx
        exact ih hlen' hpt' (List.Pairwise.sublist (List.sublist_cons_self _ _) hsort) x hx
      · have hpa : p a = false := by simp [hab, hb]
        rw [List.dropWhile_cons, hpa] at hx
        simp only [Bool.false_eq_true, if_false] at hx
        rcases List.mem_cons.mp hx with h | h
        · rw [h]; exact hpa
        · obtain ⟨y, hy⟩ := zip_partner hlen' x h
          have hyv : p x = decide (y ≤ t) := hpt' (x, y) hy
          have hby : b ≤ y := by
            have := (List.pairwise_cons.mp hsort).1 y
            exact this (List.of_mem_zip hy).2
          have : ¬ (y ≤ t) := fun hyt => hb (le_trans hby hyt)
          simp [hyv, this]

theorem zip_take_take {β : Type} :
    ∀ (l1 : List Nat) (l2 : List β) (n : Nat),
    (l1.take n).zip (l2.take n) = (l1.zip l2).take n := by
  intro l1
  induction l1 with
  | nil => intro l2 n; simp
  | cons a t ih =>
    intro l2 n
    cases l2 with
    | nil => simp
    | cons b t2 =>
      cases n with
      | zero => simp
      | succ m => simp [ih t2 m]

theorem zip_drop_drop {β : Type} :
    ∀ (l1 : List Nat) (l2 : List β) (n : Nat),
    (l1.drop n).zip (l2.drop n) = (l1.zip l2).drop n := by
  intro l1
  induction l1 with
  | nil => intro l2 n; simp
  | cons a t ih =>
    intro l2 n
    cases l2 with
    | nil => simp
    | cons b t2 =>
      cases n with
      | zero => simp
      | succ m => simp [ih t2 m]

theorem lastD_take (l : List Nat) :
    ∀ (P : Nat), P ≤ l.length → ∀ d,
    lastD (l.take P) d = if P = 0 then d else l.getD (P - 1) d := by
  induction l with
  | nil =>
    intro P hP d
    have : P = 0 := Nat.le_zero.mp (by simpa using hP)
    subst this
    simp [lastD]
  | cons a t ih =>
    intro P hP d
    have hP' : P ≤ t.length + 1 := by simpa using hP
    cases P with
    | zero => simp [lastD]
    | succ Q =>
      simp only [List.take_succ_cons, lastD, Nat.succ_ne_zero, if_false,
        Nat.succ_sub_one]
      rw [ih Q (by omega) a]
      cases Q with
      | zero => simp
      | succ R =>
        simp only [Nat.succ_ne_zero, if_false, List.getD_cons_succ, Nat.succ_sub_one]
        have hR : R < t.length := by omega
        rw [List.getD_eq_getElem?_getD, List.getD_eq_getElem?_getD,
          List.getElem?_eq_getElem hR]
        simp

theorem getD_default_irrel (l : List Nat) (m : Nat) (h : m < l.length) (d d' : Nat) :
    l.getD m d = l.getD m d' := by
  rw [List.getD_eq_getElem?_getD, List.getD_eq_getElem?_getD,
    List.getElem?_eq_getElem h]
  simp

theorem getNode_isSome_of_lt {s : SkipList α} {i : Nat}
    (h : i < s.nodes.length) : ∃ n, getNode s i = some n := by
  simp [getNode, List.getElem?_eq_getElem h]

theorem getNode_isSome_of_nextLen {s : SkipList α} {i m : Nat}
    (h : nextLenOf s i = some m) : ∃ n, getNode s i = some n ∧ n.next.length = m := by
  unfold nextLenOf at h
  cases hn : getNode s i with
  | none => rw [hn] at h; exact absurd h (by simp)
  | some n =>
    rw [hn] at h
    exact ⟨n, rfl, by simpa using h⟩

theorem setNext_eq {s : SkipList α} {i k : Nat} {lnk : Link} {n : SkipListNode α}
    (hn : getNode s i = some n) (hk : k < n.next.length) :
    setNext s i k lnk =
      some { s with nodes := s.nodes.set i { n with next := n.next.set k lnk } } := by
  simp [setNext, hn, hk]

theorem getNode_set_eq {s : SkipList α} {i : Nat} {nd : SkipListNode α}
    (hi : i < s.nodes.length) :
    getNode { s with nodes := s.nodes.set i nd } i = some nd := by
  simp [getNode, List.getElem?_set_eq_of_lt _ hi]

theorem getNode_set_ne {s : SkipList α} {i j : Nat} {nd : SkipListNode α}
    (hij : j ≠ i) :
    getNode { s with nodes := s.nodes.set i nd } j = getNode s j := by
  simp [getNode, List.getElem?_set_ne (fun hh => hij hh.symm)]

theorem getNode_lt_of_some {s : SkipList α} {i : Nat} {n : SkipListNode α}
    (hn : getNode s i = some n) : i < s.nodes.length := by
  unfold getNode at hn
  exact (List.getElem?_eq_some_iff.mp hn).1

theorem setNext_shape {s s' : SkipList α} {i k : Nat} {lnk : Link}
    (h : setNext s i k lnk = some s') :
    s'.numLevels = s.numLevels ∧ s'.len = s.len ∧
    s'.nodes.length = s.nodes.length ∧
    (∀ j, valOf s' j = valOf s j) ∧ (∀ j, levelOf s' j = levelOf s j) ∧
    (∀ j, nextLenOf s' j = nextLenOf s j) := by
  cases hn : getNode s i with
  | none => simp [setNext, hn] at h
  | some n =>
    by_cases hk : k < n.next.length
    · rw [setNext_eq hn hk] at h
      obtain rfl : _ = s' := Option.some_injective _ h
      have hi : i < s.nodes.length := getNode_lt_of_some hn
      refine ⟨rfl, rfl, by simp, ?_, ?_, ?_⟩ <;> intro j <;>
        by_cases hij : j = i
      · subst hij; simp [valOf, getNode_set_eq hi, hn]
      · simp [valOf, getNode_set_ne hij]
      · subst hij; simp [levelOf, getNode_set_eq hi, hn]
      · simp [levelOf, getNode_set_ne hij]
      · subst hij; simp [nextLenOf, getNode_set_eq hi, hn]
      · simp [nextLenOf, getNode_set_ne hij]
    · simp [setNext, hn, hk] at h

theorem setNext_getNextLink_ne {s s' : SkipList α} {i k : Nat} {lnk : Link}
    (h : setNext s i k lnk = some s') {j m : Nat} (hne : j ≠ i ∨ m ≠ k) :
    getNextLink s' j m = getNextLink s j m := by
  cases hn : getNode s i with
  | none => simp [setNext, hn] at h
  | some n =>
    by_cases hk : k < n.next.length
    · rw [setNext_eq hn hk] at h
      obtain rfl : _ = s' := Option.some_injective _ h
      have hi : i < s.nodes.length := getNode_lt_of_some hn
      by_cases hij : j = i
      · subst hij
        rcases hne with hne | hne
        · exact absurd rfl hne
        · simp [getNextLink, getNode_set_eq hi, hn,
            List.getElem?_set_ne (fun hh => hne hh.symm)]
      · simp [getNextLink, getNode_set_ne hij]
    · simp [setNext, hn, hk] at h

theorem setNext_getNextLink_self {s s' : SkipList α} {i k : Nat} {lnk : Link}
    (h : setNext s i k lnk = some s') : getNextLink s' i k = some lnk := by
  cases hn : getNode s i with
  | none => simp [setNext, hn] at h
  | some n =>
    by_cases hk : k < n.next.length
    · rw [setNext_eq hn hk] at h
      obtain rfl : _ = s' := Option.some_injective _ h
      have hi : i < s.nodes.length := getNode_lt_of_some hn
      simp [getNextLink, getNode_set_eq hi, List.getElem?_set_eq_of_lt _ hk]
    · simp [setNext, hn, hk] at h

theorem setNext_isSome {s : SkipList α} {i k : Nat} (lnk : Link)
    {m : Nat} (hm : nextLenOf s i = some m) (hk : k < m) :
    ∃ s', setNext s i k lnk = some s' := by
  obtain ⟨n, hn, hlen⟩ := getNode_isSome_of_nextLen hm
  exact ⟨_, setNext_eq hn (hlen ▸ hk)⟩

theorem setPrev_eq {s : SkipList α} {i : Nat} {p : Link} {n : SkipListNode α}
    (hn : getNode s i = some n) :
    setPrev s i p = some { s with nodes := s.nodes.set i { n with prev := p } } := by
  simp [setPrev, hn]

theorem setPrev_shape {s s' : SkipList α} {i : Nat} {p : Link}
    (h : setPrev s i p = some s') :
    s'.numLevels = s.numLevels ∧ s'.len = s.len ∧
    s'.nodes.length = s.nodes.length ∧
    (∀ j, valOf s' j = valOf s j) ∧ (∀ j, levelOf s' j = levelOf s j) ∧
    (∀ j, nextLenOf s' j = nextLenOf s j) ∧
    (∀ j m, getNextLink s' j m = getNextLink s j m) := by
  cases hn : getNode s i with
  | none => simp [setPrev, hn] at h
  | some n =>
    rw [setPrev_eq hn] at h
    obtain rfl : _ = s' := Option.some_injective _ h
    have hi : i < s.nodes.length := getNode_lt_of_some hn
    refine ⟨rfl, rfl, by simp, ?_, ?_, ?_, ?_⟩
    · intro j
      by_cases hij : j = i
      · subst hij; simp [valOf, getNode_set_eq hi, hn]
      · simp [valOf, getNode_set_ne hij]
    · intro j
      by_cases hij : j = i
      · subst hij; simp [levelOf, getNode_set_eq hi, hn]
      · simp [levelOf, getNode_set_ne hij]
    · intro j
      by_cases hij : j = i
      · subst hij; simp [nextLenOf, getNode_set_eq hi, hn]
      · simp [nextLenOf, getNode_set_ne hij]
    · intro j m
      by_cases hij : j = i
      · subst hij; simp [getNextLink, getNode_set_eq hi, hn]
      · simp [getNextLink, getNode_set_ne hij]

theorem setPrev_isSome {s : SkipList α} {i : Nat} (p : Link)
    {n : SkipListNode α} (hn : getNode s i = some n) :
    ∃ s', setPrev s i p = some s' :=
  ⟨_, setPrev_eq hn⟩

theorem getNode_append_lt {s : SkipList α} {nd : SkipListNode α} {j : Nat}
    (h : j < s.nodes.length) :
    getNode { s with nodes := s.nodes ++ [nd] } j = getNode s j := by
  simp only [getNode]
  rw [List.getElem?_append]
  simp [h]

theorem getNode_append_self {s : SkipList α} {nd : SkipListNode α} :
    getNode { s with nodes := s.nodes ++ [nd] } s.nodes.length = some nd := by
  simp [getNode]

theorem getNextLink_append_lt {s : SkipList α} {nd : SkipListNode α} {j k : Nat}
    (h : j < s.nodes.length) :
    getNextLink { s with nodes := s.nodes ++ [nd] } j k = getNextLink s j k := by
  simp [getNextLink, getNode_append_lt h]

theorem linkedAt_congr {s s' : SkipList α} {k : Nat} :
    ∀ {L : List Nat}, (∀ a ∈ L, getNextLink s' a k = getNextLink s a k) →
    linkedAt s' k L = linkedAt s k L := by
  intro L
  induction L with
  | nil => intro _; rfl
  | cons a t ih =>
    intro hL
    cases t with
    | nil => simp [linkedAt, hL a (by simp)]
    | cons b t' =>
      simp only [linkedAt, hL a (by simp)]
      rw [ih (fun x hx => hL x (by simp [hx]))]

theorem linkedAt_cons_iff {s : SkipList α} {k : Nat} {a : Nat} {l : List Nat} :
    linkedAt s k (a :: l) = true ↔
    getNextLink s a k = some l.head? ∧ linkedAt s k l = true := by
  cases l with
  | nil => simp [linkedAt]
  | cons b t => simp [linkedAt]

theorem linkedAt_of_split {s : SkipList α} {k : Nat} :
    ∀ (P : List Nat) {c : Nat} {S : List Nat},
    linkedAt s k (P ++ c :: S) = true → linkedAt s k (c :: S) = true := by
  intro P
  induction P with
  | nil => intro c S h; exact h
  | cons a t ih =>
    intro c S h
    rw [List.cons_append, linkedAt_cons_iff] at h
    exact ih h.2

theorem linkedAt_next_of_split {s : SkipList α} {k : Nat}
    (P : List Nat) {c : Nat} {S : List Nat}
    (h : linkedAt s k (P ++ c :: S) = true) :
    getNextLink s c k = some S.head? :=
  (linkedAt_cons_iff.mp (linkedAt_of_split P h)).1

theorem linkedAt_getNode_isSome {s : SkipList α} {k : Nat} {L : List Nat}
    (h : linkedAt s k L = true) {a : Nat} (ha : a ∈ L) :
    ∃ n, getNode s a = some n := by
  obtain ⟨P, S, rfl⟩ := List.append_of_mem ha
  have := linkedAt_next_of_split P h
  unfold getNextLink at this
  cases hn : getNode s a with
  | none => rw [hn] at this; exact absurd this (by simp)
  | some n => exact ⟨n, rfl⟩

theorem valOf_eq {s : SkipList α} {i : Nat} {n : SkipListNode α}
    (hn : getNode s i = some n) : valOf s i = n.val := by
  simp [valOf, hn]

theorem levelOf_eq {s : SkipList α} {i : Nat} {n : SkipListNode α}
    (hn : getNode s i = some n) : levelOf s i = n.level := by
  simp [levelOf, hn]

theorem nextLenOf_eq {s : SkipList α} {i : Nat} {n : SkipListNode α}
    (hn : getNode s i = some n) : nextLenOf s i = some n.next.length := by
  simp [nextLenOf, hn]

theorem getNextLink_eq {s : SkipList α} {i k : Nat} {n : SkipListNode α}
    (hn : getNode s i = some n) : getNextLink s i k = n.next[k]? := by
  simp [getNextLink, hn]

theorem getNextLink_inv {s : SkipList α} {i k : Nat} {l : Link}
    (h : getNextLink s i k = some l) :
    ∃ n, getNode s i = some n ∧ n.next[k]? = some l := by
  cases hn : getNode s i with
  | none => rw [getNextLink, hn] at h; simp at h
  | some n => exact ⟨n, rfl, by rwa [getNextLink_eq hn] at h⟩

theorem linkedAt_splice {s s' : SkipList α} {k w : Nat} :
    ∀ (P : List Nat) {a : Nat} {Q : List Nat},
    linkedAt s k (P ++ a :: Q) = true →
    (∀ x ∈ P ++ a :: Q, x ≠ a → x ≠ w → getNextLink s' x k = getNextLink s x k) →
    getNextLink s' a k = some (some w) →
    getNextLink s' w k = some Q.head? →
    a ∉ P → a ∉ Q → w ∉ P → w ∉ Q → w ≠ a →
    linkedAt s' k (P ++ a :: w :: Q) = true := by
  intro P
  induction P with
  | nil =>
    intro a Q h hcong ha hw haP haQ hwP hwQ hwa
    simp only [List.nil_append] at h ⊢
    rw [linkedAt_cons_iff] at h
    rw [linkedAt_cons_iff]
    refine ⟨by simpa using ha, ?_⟩
    rw [linkedAt_cons_iff]
    refine ⟨hw, ?_⟩
    rw [linkedAt_congr (s := s) (fun x hx => hcong x (by simp [hx])
      (fun he => haQ (he ▸ hx)) (fun he => hwQ (he ▸ hx)))]
    exact h.2
  | cons p P' ih =>
    intro a Q h hcong ha hw haP haQ hwP hwQ hwa
    have hpa : p ≠ a := fun he => haP (by simp [he.symm])
    have hpw : p ≠ w := fun he => hwP (by simp [he.symm])
    rw [List.cons_append, linkedAt_cons_iff] at h
    rw [List.cons_append, linkedAt_cons_iff]
    constructor
    · rw [hcong p (by simp) hpa hpw, h.1]
      cases P' <;> simp
    · exact ih h.2 (fun x hx he1 he2 => hcong x (by simp [hx]) he1 he2)
        ha hw (fun hx => haP (by simp [hx])) haQ
        (fun hx => hwP (by simp [hx])) hwQ hwa

theorem headOk_iff {s : SkipList α} :
    headOk s = true ↔ valOf s 0 = none ∧ levelOf s 0 = s.numLevels - 1 ∧
      nextLenOf s 0 = some s.numLevels := by
  cases hn : getNode s 0 with
  | none => simp [headOk, hn, nextLenOf]
  | some n =>
    simp only [headOk, hn, Bool.and_eq_true, beq_iff_eq,
      Option.isNone_iff_eq_none, valOf_eq hn, levelOf_eq hn, nextLenOf_eq hn,
      Option.some_inj]
    tauto

theorem getD_none_iff_link {s : SkipList α} {i : Nat} {n : SkipListNode α}
    (hn : getNode s i = some n) {j : Nat} (hj : j < n.next.length) :
    n.next.getD j none = none ↔ getNextLink s i j = some none := by
  rw [List.getD_eq_getElem?_getD, List.getElem?_eq_getElem hj,
    getNextLink_eq hn, List.getElem?_eq_getElem hj]
  simp

theorem nodeOkAt_iff [DecidableEq α] {s : SkipList α} {x : α × Nat} {i : Nat} :
    nodeOkAt s x i = true ↔ valOf s i = some x.1 ∧ levelOf s i = x.2 ∧
      x.2 + 1 ≤ s.numLevels ∧ nextLenOf s i = some s.numLevels ∧
      ∀ j, j < s.numLevels → x.2 < j → getNextLink s i j = some none := by
  cases hn : getNode s i with
  | none => simp [nodeOkAt, hn, nextLenOf, hn]
  | some n =>
    simp only [nodeOkAt, hn, Bool.and_eq_true, beq_iff_eq,
      decide_eq_true_iff, List.all_eq_true, List.mem_range,
      valOf_eq hn, levelOf_eq hn, nextLenOf_eq hn, Option.some_inj]
    constructor
    · rintro ⟨⟨⟨⟨hv, hl⟩, hb⟩, hlen⟩, hall⟩
      refine ⟨hv, hl, hb, hlen, ?_⟩
      intro j hj hxj
      have := hall j hj
      rcases Bool.or_eq_true _ _ |>.mp this with h | h
      · have hj2 : j ≤ n.level := of_decide_eq_true h
        omega
      · have hgd : n.next.getD j none = none := by simpa using h
        exact (getD_none_iff_link hn (by omega)).mp hgd
    · rintro ⟨hv, hl, hb, hlen, hall⟩
      refine ⟨⟨⟨⟨hv, hl⟩, hb⟩, hlen⟩, ?_⟩
      intro j hj
      by_cases hxj : j ≤ n.level
      · simp [hxj]
      · have h1 : getNextLink s i j = some none := hall j hj (by omega)
        have h2 := (getD_none_iff_link hn (by omega)).mpr h1
        rw [List.getD_eq_getElem?_getD] at h2
        simp [h2]

theorem repOk_iff [LinearOrder α] {s : SkipList α} {xs : List (α × Nat)}
    {ord : List Nat} :
    repOk s xs ord = true ↔
      1 ≤ s.numLevels ∧ headOk s = true ∧ ord.length = xs.length ∧
      s.nodes.length = ord.length + 1 ∧ (0 :: ord).Nodup ∧
      (∀ i ∈ 0 :: ord, i < s.nodes.length) ∧
      (∀ p ∈ ord.zip xs, nodeOkAt s p.2 p.1 = true) ∧
      xs.Pairwise (fun a b => a.1 ≤ b.1) ∧
      (∀ k, k < s.numLevels → linkedAt s k (subAt s ord k) = true) := by
  simp only [repOk, Bool.and_eq_true, decide_eq_true_iff, List.all_eq_true,
    beq_iff_eq, List.mem_range]
  tauto

theorem rep_zip_facts [LinearOrder α] {s : SkipList α} {xs : List (α × Nat)}
    {ord : List Nat} (hrep : repOk s xs ord = true) :
    ∀ p ∈ ord.zip xs, valOf s p.1 = some p.2.1 ∧ levelOf s p.1 = p.2.2 ∧
      p.2.2 + 1 ≤ s.numLevels ∧ nextLenOf s p.1 = some s.numLevels ∧
      ∀ j, j < s.numLevels → p.2.2 < j → getNextLink s p.1 j = some none := by
  intro p hp
  exact nodeOkAt_iff.mp ((repOk_iff.mp hrep).2.2.2.2.2.2.1 p hp)

theorem rep_mem_facts [LinearOrder α] {s : SkipList α} {xs : List (α × Nat)}
    {ord : List Nat} (hrep : repOk s xs ord = true) {i : Nat} (hi : i ∈ ord) :
    ∃ x, (i, x) ∈ ord.zip xs ∧ valOf s i = some x.1 ∧ levelOf s i = x.2 ∧
      x.2 + 1 ≤ s.numLevels := by
  obtain ⟨y, hy⟩ := zip_partner (repOk_iff.mp hrep).2.2.1 i hi
  obtain ⟨h1, h2, h3, _⟩ := rep_zip_facts hrep (i, y) hy
  exact ⟨y, hy, h1, h2, h3⟩

theorem rep_level_lt [LinearOrder α] {s : SkipList α} {xs : List (α × Nat)}
    {ord : List Nat} (hrep : repOk s xs ord = true) {i : Nat} (hi : i ∈ ord) :
    levelOf s i < s.numLevels := by
  obtain ⟨x, _, _, h2, h3⟩ := rep_mem_facts hrep hi
  omega

theorem nodeTest_of_valOf [LinearOrder α] {s : SkipList α} {i : Nat} {v : α}
    (hv : valOf s i = some v) (t : α) : nodeTest s t i = decide (v ≤ t) := by
  simp [nodeTest, hv]

theorem rep_nodeTest_eq [LinearOrder α] {s : SkipList α} {xs : List (α × Nat)}
    {ord : List Nat} (hrep : repOk s xs ord = true) (t : α) :
    ∀ x ∈ ord.zip (xs.map Prod.fst), nodeTest s t x.1 = decide (x.2 ≤ t) := by
  intro x hx
  rw [List.zip_map_right] at hx
  obtain ⟨p, hp, rfl⟩ := List.mem_map.mp hx
  obtain ⟨h1, _⟩ := rep_zip_facts hrep p hp
  exact nodeTest_of_valOf h1 t

theorem rep_takeWhile_take [LinearOrder α] {s : SkipList α}
    {xs : List (α × Nat)} {ord : List Nat} (hrep : repOk s xs ord = true)
    (t : α) :
    ord.takeWhile (nodeTest s t) =
      ord.take ((xs.map Prod.fst).takeWhile (fun a => decide (a ≤ t))).length := by
  apply parallel_takeWhile
  · simp [(repOk_iff.mp hrep).2.2.1]
  · exact rep_nodeTest_eq hrep t

theorem rep_dropWhile_false [LinearOrder α] {s : SkipList α}
    {xs : List (α × Nat)} {ord : List Nat} (hrep : repOk s xs ord = true)
    (t : α) :
    ∀ x ∈ ord.dropWhile (nodeTest s t), nodeTest s t x = false := by
  exact @parallel_dropWhile_false α _ (nodeTest s t) t ord (xs.map Prod.fst)
    (by simp [(repOk_iff.mp hrep).2.2.1]) (rep_nodeTest_eq hrep t)
    (by rw [List.pairwise_map]; exact (repOk_iff.mp hrep).2.2.2.2.2.2.2.1)

theorem subAt_decomp [LinearOrder α] {s : SkipList α} {xs : List (α × Nat)}
    {ord : List Nat} (hrep : repOk s xs ord = true) {k : Nat}
    (hk : k < s.numLevels) (t : α) :
    subAt s ord k =
      0 :: ((ord.takeWhile (nodeTest s t)).filter
          (fun i => decide (k ≤ levelOf s i)) ++
        (ord.dropWhile (nodeTest s t)).filter
          (fun i => decide (k ≤ levelOf s i))) := by
  have hhead : levelOf s 0 = s.numLevels - 1 :=
    (headOk_iff.mp (repOk_iff.mp hrep).2.1).2.1
  have hN : 1 ≤ s.numLevels := (repOk_iff.mp hrep).1
  unfold subAt
  rw [List.filter_cons, if_pos (by simp [hhead]; omega),
    ← List.filter_append, List.takeWhile_append_dropWhile]

theorem proceedAux_eq_walkW [LinearOrder α] {s : SkipList α} {t : α} {k : Nat}
    (hk : k < s.numLevels) :
    ∀ (rest : List Nat) (i fuel : Nat),
    linkedAt s k (i :: rest) = true → rest.length < fuel →
    proceedAux s (goPred t) k fuel i = some (walkW s t i rest) := by
  intro rest
  induction rest with
  | nil =>
    intro i fuel hlink hfuel
    obtain ⟨fuel, rfl⟩ : ∃ f, fuel = f + 1 := ⟨fuel - 1, by omega⟩
    obtain ⟨hl, _⟩ := linkedAt_cons_iff.mp hlink
    obtain ⟨curr, hcurr, hcnext⟩ := getNextLink_inv hl
    simp only [List.head?_nil] at hcnext
    simp [proceedAux, next_if, hk, hcurr, hcnext, walkW]
  | cons j r ih =>
    intro i fuel hlink hfuel
    obtain ⟨fuel, rfl⟩ : ∃ f, fuel = f + 1 := ⟨fuel - 1, by omega⟩
    obtain ⟨hl, hlink'⟩ := linkedAt_cons_iff.mp hlink
    obtain ⟨curr, hcurr, hcnext⟩ := getNextLink_inv hl
    simp only [List.head?_cons] at hcnext
    obtain ⟨hlj, _⟩ := linkedAt_cons_iff.mp hlink'
    obtain ⟨nxt, hnxt, _⟩ := getNextLink_inv hlj
    have hpred : goPred t curr nxt = nodeTest s t j := by
      simp [goPred, nodeTest, valOf_eq hnxt]
    by_cases htest : nodeTest s t j = true
    · have hstep : next_if s i k (goPred t) = some (some j) := by
        simp [next_if, hk, hcurr, hcnext, hnxt, hpred, htest]
      simp only [proceedAux, hstep]
      rw [ih j fuel hlink' (by simpa using hfuel)]
      simp [walkW, htest]
    · have hstep : next_if s i k (goPred t) = some none := by
        simp [next_if, hk, hcurr, hcnext, hnxt, hpred, htest]
      simp only [proceedAux, hstep]
      simp [walkW, htest]

theorem proceed_eq_walkW [LinearOrder α] {s : SkipList α} {t : α} {k : Nat}
    (hk : k < s.numLevels) {i : Nat} {rest : List Nat}
    (hlink : linkedAt s k (i :: rest) = true)
    (hfuel : rest.length < s.nodes.length) :
    proceed_at_level_while s i k (goPred t) = some (walkW s t i rest) := by
  unfold proceed_at_level_while
  rw [if_pos hk]
  exact proceedAux_eq_walkW hk rest i _ hlink hfuel

theorem walk_level [LinearOrder α] {s : SkipList α} {t : α} {k : Nat}
    (hk : k < s.numLevels) {B D : List Nat} {c : Nat}
    (hlink : linkedAt s k (0 :: B ++ D) = true)
    (hB : ∀ x ∈ B, nodeTest s t x = true)
    (hD : ∀ x ∈ D, nodeTest s t x = false)
    (hlen : B.length + D.length < s.nodes.length)
    (hc : c = 0 ∨ ∃ B1 B2, B = B1 ++ c :: B2) :
    proceed_at_level_while s c k (goPred t) = some (lastD B 0) := by
  rcases hc with rfl | ⟨B1, B2, rfl⟩
  · rw [proceed_eq_walkW hk hlink (by simpa using hlen)]
    rw [walkW_eq_lastD]
    simp only [List.append_eq]
    rw [takeWhile_append_of_all hB, takeWhile_eq_nil_of_all hD]
    simp
  · have hsplit : (0 :: (B1 ++ c :: B2) ++ D) = (0 :: B1) ++ (c :: (B2 ++ D)) := by
      simp
    rw [hsplit] at hlink
    have hlink' := linkedAt_of_split (0 :: B1) hlink
    have hfuel : (B2 ++ D).length < s.nodes.length := by
      simp only [List.length_append, List.length_cons] at hlen ⊢
      omega
    rw [proceed_eq_walkW hk hlink' hfuel]
    rw [walkW_eq_lastD]
    rw [takeWhile_append_of_all (fun x hx => hB x (by simp [hx])),
      takeWhile_eq_nil_of_all hD]
    simp [lastD_append_cons]

theorem lastD_filter_cases {B : List Nat} {q : Nat → Bool} :
    lastD (B.filter q) 0 = 0 ∨
      ∃ B1 B2, B = B1 ++ lastD (B.filter q) 0 :: B2 := by
  rcases List.mem_cons.mp (lastD_mem_cons (B.filter q) 0) with h | h
  · exact Or.inl h
  · right
    exact List.append_of_mem (List.mem_of_mem_filter h)

theorem findLoop_descend [LinearOrder α] {s : SkipList α}
    {xs : List (α × Nat)} {ord : List Nat} (hrep : repOk s xs ord = true)
    (t : α) :
    ∀ k, k ≤ s.numLevels →
    findLoop s t (lastD ((ord.takeWhile (nodeTest s t)).filter
      (fun i => decide (k ≤ levelOf s i))) 0) k =
    some (lastD (ord.takeWhile (nodeTest s t)) 0) := by
  intro k
  induction k with
  | zero =>
    intro _
    simp only [findLoop]
    congr 2
    exact List.filter_eq_self.mpr (fun a _ => by simp)
  | succ k ih =>
    intro hkN
    have hk : k < s.numLevels := by omega
    have hBfact : ((ord.takeWhile (nodeTest s t)).filter
        (fun i => decide (k ≤ levelOf s i))).filter
        (fun i => decide (k + 1 ≤ levelOf s i)) =
        (ord.takeWhile (nodeTest s t)).filter
        (fun i => decide (k + 1 ≤ levelOf s i)) := by
      rw [List.filter_filter]
      exact List.filter_congr (fun a _ => by
        by_cases h : k + 1 ≤ levelOf s a
        · have : k ≤ levelOf s a := by omega
          simp [h, this]
        · simp [h])
    have hwalk := walk_level (s := s) (t := t) hk
      (B := (ord.takeWhile (nodeTest s t)).filter
        (fun i => decide (k ≤ levelOf s i)))
      (D := (ord.dropWhile (nodeTest s t)).filter
        (fun i => decide (k ≤ levelOf s i)))
      (c := lastD ((ord.takeWhile (nodeTest s t)).filter
        (fun i => decide (k + 1 ≤ levelOf s i))) 0)
      (by
        have := (repOk_iff.mp hrep).2.2.2.2.2.2.2.2 k hk
        rwa [subAt_decomp hrep hk t] at this)
      (fun x hx => List.mem_takeWhile_imp (List.mem_of_mem_filter hx))
      (fun x hx => rep_dropWhile_false hrep t x (List.mem_of_mem_filter hx))
      (by
        have h1 := List.length_filter_le (fun i => decide (k ≤ levelOf s i))
          (ord.takeWhile (nodeTest s t))
        have h2 := List.length_filter_le (fun i => decide (k ≤ levelOf s i))
          (ord.dropWhile (nodeTest s t))
        have h3 : (ord.takeWhile (nodeTest s t)).length +
            (ord.dropWhile (nodeTest s t)).length = ord.length := by
          rw [← List.length_append, List.takeWhile_append_dropWhile]
        have h4 : s.nodes.length = ord.length + 1 :=
          (repOk_iff.mp hrep).2.2.2.1
        omega)
      (by rw [← hBfact]; exact lastD_filter_cases)
    simp only [findLoop, hwalk]
    exact ih (by omega)

theorem find_node_formula [LinearOrder α] {s : SkipList α}
    {xs : List (α × Nat)} {ord : List Nat} (hrep : repOk s xs ord = true)
    (t : α) :
    find_node s t = some (lastD (ord.takeWhile (nodeTest s t)) 0) := by
  unfold find_node
  have h0 : (ord.takeWhile (nodeTest s t)).filter
      (fun i => decide (s.numLevels ≤ levelOf s i)) = [] := by
    rw [List.filter_eq_nil_iff]
    intro a ha
    have := rep_level_lt hrep ((List.takeWhile_sublist _).mem ha)
    simp
    omega
  have := findLoop_descend hrep t s.numLevels le_rfl
  rw [h0] at this
  simpa [lastD] using this

/-- The number of stored values that are at most `t`: on a sorted value
sequence this is the base-chain position one past the rightmost value
`≤ t`. -/
def cutLen [LinearOrder α] (xs : List (α × Nat)) (t : α) : Nat :=
  ((xs.map Prod.fst).takeWhile (fun a => decide (a ≤ t))).length

theorem cutLen_le [LinearOrder α] (xs : List (α × Nat)) (t : α) :
    cutLen xs t ≤ xs.length := by
  have := (List.takeWhile_sublist
    (l := xs.map Prod.fst) (fun a => decide (a ≤ t))).length_le
  simpa [cutLen] using this

theorem find_node_positional [LinearOrder α] {s : SkipList α}
    {xs : List (α × Nat)} {ord : List Nat} (hrep : repOk s xs ord = true)
    (t : α) :
    find_node s t = some (if cutLen xs t = 0 then 0
      else ord.getD (cutLen xs t - 1) 0) := by
  rw [find_node_formula hrep t, rep_takeWhile_take hrep t]
  have hlen : ord.length = xs.length := (repOk_iff.mp hrep).2.2.1
  have hP : cutLen xs t ≤ ord.length := by
    rw [hlen]; exact cutLen_le xs t
  rw [lastD_take ord _ (by simpa [cutLen] using hP) 0]
  rfl

theorem getD_zip_mem {β : Type} :
    ∀ {l1 : List Nat} {l2 : List β}, l1.length = l2.length →
    ∀ {m : Nat}, m < l1.length → ∀ (d : Nat) (w : β),
    (l1.getD m d, l2.getD m w) ∈ l1.zip l2 := by
  intro l1
  induction l1 with
  | nil => intro l2 _ m hm; simp at hm
  | cons a t ih =>
    intro l2 hlen m hm d w
    cases l2 with
    | nil => simp at hlen
    | cons b t2 =>
      cases m with
      | zero => simp
      | succ q =>
        simp only [List.getD_cons_succ]
        exact List.mem_cons_of_mem _
          (ih (by simpa using hlen) (by simpa using hm) d w)

theorem getD_map_fst {l : List (α × Nat)} {m : Nat} (h : m < l.length)
    (t : α) : (l.map Prod.fst).getD m t = (l.getD m (t, 0)).1 := by
  rw [List.getD_eq_getElem?_getD, List.getD_eq_getElem?_getD,
    List.getElem?_eq_getElem h,
    List.getElem?_eq_getElem (by simpa using h : m < (l.map Prod.fst).length)]
  simp

theorem getD_mem_of_lt {β : Type} {l : List β} {m : Nat} (h : m < l.length)
    (d : β) : l.getD m d ∈ l := by
  rw [List.getD_eq_getElem?_getD, List.getElem?_eq_getElem h]
  exact List.getElem_mem h

theorem takeWhile_getD {β : Type} (p : β → Bool) :
    ∀ (l : List β) (m : Nat), m < (l.takeWhile p).length → ∀ (d : β),
    (l.takeWhile p).getD m d = l.getD m d := by
  intro l
  induction l with
  | nil => intro m hm; simp at hm
  | cons a t ih =>
    intro m hm d
    by_cases ha : p a
    · rw [List.takeWhile_cons, if_pos ha] at hm ⊢
      cases m with
      | zero => simp
      | succ q =>
        simp only [List.getD_cons_succ]
        exact ih q (by simpa using hm) d
    · rw [List.takeWhile_cons, if_neg ha] at hm
      simp at hm

theorem valOf_inv {s : SkipList α} {i : Nat} {v : α}
    (h : valOf s i = some v) :
    ∃ n, getNode s i = some n ∧ n.val = some v := by
  cases hn : getNode s i with
  | none => rw [valOf, hn] at h; simp at h
  | some n => exact ⟨n, rfl, by rwa [valOf_eq hn] at h⟩

theorem find_eq_of_cut_zero [LinearOrder α] {s : SkipList α}
    {xs : List (α × Nat)} {ord : List Nat} (hrep : repOk s xs ord = true)
    {t : α} (hP : cutLen xs t = 0) :
    find s t = some none ∧ contains s t = some false := by
  have hnode : find_node s t = some 0 := by
    have h := find_node_positional hrep t
    rw [hP] at h
    simpa using h
  have hhd := headOk_iff.mp (repOk_iff.mp hrep).2.1
  obtain ⟨n, hn, _⟩ := getNode_isSome_of_nextLen hhd.2.2
  have hv : n.val = none := by
    have h1 := hhd.1
    rwa [valOf_eq hn] at h1
  constructor
  · simp [find, hnode, hn, hv]
  · simp [contains, find, hnode, hn, hv]

theorem find_eq_of_cut_pos [LinearOrder α] {s : SkipList α}
    {xs : List (α × Nat)} {ord : List Nat} (hrep : repOk s xs ord = true)
    {t : α} (hP : 0 < cutLen xs t) :
    valOf s (ord.getD (cutLen xs t - 1) 0) = some ((xs.getD (cutLen xs t - 1) (t, 0)).1) ∧
    find s t = some (if (xs.getD (cutLen xs t - 1) (t, 0)).1 = t
      then some ((xs.getD (cutLen xs t - 1) (t, 0)).1) else none) := by
  have hlen : ord.length = xs.length := (repOk_iff.mp hrep).2.2.1
  have hm : cutLen xs t - 1 < ord.length := by
    have := cutLen_le xs t
    omega
  have hzip := getD_zip_mem hlen hm 0 (t, 0)
  obtain ⟨hval, _⟩ := rep_zip_facts hrep _ hzip
  have hnode := find_node_positional hrep t
  rw [if_neg (by omega)] at hnode
  obtain ⟨n, hn, hv⟩ := valOf_inv hval
  refine ⟨hval, ?_⟩
  simp only [find, hnode, hn, hv]

theorem sorted_last_le_eq [LinearOrder α] :
    ∀ {l : List α} {v : α}, l.Pairwise (· ≤ ·) → v ∈ l →
    0 < (l.takeWhile (fun a => decide (a ≤ v))).length ∧
    l.getD ((l.takeWhile (fun a => decide (a ≤ v))).length - 1) v = v := by
  intro l
  induction l with
  | nil => intro v _ hv; simp at hv
  | cons a t ih =>
    intro v hsort hv
    obtain ⟨hle, hsort'⟩ := List.pairwise_cons.mp hsort
    have hav : a ≤ v := by
      rcases List.mem_cons.mp hv with rfl | hvt
      · exact le_refl _
      · exact hle v hvt
    rw [List.takeWhile_cons, if_pos (by simpa using hav)]
    refine ⟨by simp, ?_⟩
    by_cases hvt : v ∈ t
    · obtain ⟨hpos, hgd⟩ := ih hsort' hvt
      obtain ⟨Q, hQ⟩ : ∃ Q, (t.takeWhile (fun a => decide (a ≤ v))).length = Q + 1 :=
        ⟨(t.takeWhile (fun a => decide (a ≤ v))).length - 1, by omega⟩
      simp only [List.length_cons, hQ, Nat.add_sub_cancel, List.getD_cons_succ]
      rw [hQ, Nat.add_sub_cancel] at hgd
      exact hgd
    · obtain rfl : v = a := by
        rcases List.mem_cons.mp hv with h | h
        · exact h
        · exact absurd h hvt
      simp only [List.length_cons, Nat.add_sub_cancel]
      cases hQ : (t.takeWhile (fun a => decide (a ≤ v))).length with
      | zero => simp
      | succ Q =>
        simp only [List.getD_cons_succ]
        have hQt : Q < t.length := by
          have h5 : (t.takeWhile (fun a => decide (a ≤ v))).length ≤ t.length :=
            (List.takeWhile_sublist _).length_le
          omega
        have he1 : t.getD Q v ∈ t := getD_mem_of_lt hQt v
        have he2 : t.getD Q v ≤ v := by
          have hmem : (t.takeWhile (fun a => decide (a ≤ v))).getD Q v ∈
              t.takeWhile (fun a => decide (a ≤ v)) :=
            getD_mem_of_lt (by omega) v
          have h6 := List.mem_takeWhile_imp hmem
          simp only [decide_eq_true_eq] at h6
          rwa [takeWhile_getD (fun a => decide (a ≤ v)) t Q (by omega) v] at h6
        exact le_antisymm he2 (hle _ he1)

/-- The record allocated by `insert` before any links are written. -/
def newNode (s : SkipList α) (v : α) (lvl : Nat) : SkipListNode α :=
  ⟨lvl, some v, none, List.replicate s.numLevels none⟩

/-- The heap right after `Box::into_raw(new_node)`: the fresh node lives at
index `s.nodes.length` and nothing is linked yet. -/
def allocState (s : SkipList α) (v : α) (lvl : Nat) : SkipList α :=
  { s with nodes := s.nodes ++ [newNode s v lvl] }

/-- The element nodes of height `≥ k` whose value is `≤ v` (in base
order). -/
def bPart [LinearOrder α] (s : SkipList α) (ord : List Nat) (v : α)
    (k : Nat) : List Nat :=
  (ord.takeWhile (nodeTest s v)).filter (fun i => decide (k ≤ levelOf s i))

/-- The element nodes of height `≥ k` whose value is `> v` (in base
order). -/
def dPart [LinearOrder α] (s : SkipList α) (ord : List Nat) (v : α)
    (k : Nat) : List Nat :=
  (ord.dropWhile (nodeTest s v)).filter (fun i => decide (k ≤ levelOf s i))

/-- Invariant of the splice loop of `insert`, holding when the loop is
about to run with `k` levels still to process on state `s2`: levels below
`k` still carry the old chains, levels `k` and above carry the new chain
when they are within the drawn height `lvl` and the old chain otherwise,
and all node shapes are in place. -/
structure MidInv [LinearOrder α] (s0 : SkipList α) (xs : List (α × Nat))
    (ord : List Nat) (v : α) (lvl k : Nat) (s2 : SkipList α) : Prop where
  numLevels : s2.numLevels = s0.numLevels
  len : s2.len = s0.len
  nodesLen : s2.nodes.length = s0.nodes.length + 1
  valOld : ∀ i ∈ 0 :: ord, valOf s2 i = valOf s0 i
  levelOld : ∀ i ∈ 0 :: ord, levelOf s2 i = levelOf s0 i
  lenOld : ∀ i ∈ 0 :: ord, nextLenOf s2 i = some s0.numLevels
  valNew : valOf s2 s0.nodes.length = some v
  levelNew : levelOf s2 s0.nodes.length = lvl
  lenNew : nextLenOf s2 s0.nodes.length = some s0.numLevels
  aboveOld : ∀ i ∈ 0 :: ord, ∀ j, j < s0.numLevels → levelOf s2 i < j →
    getNextLink s2 i j = some none
  aboveNew : ∀ j, j < s0.numLevels → lvl < j →
    getNextLink s2 s0.nodes.length j = some none
  chainsOld : ∀ j, j < s0.numLevels → (j < k ∨ lvl < j) →
    linkedAt s2 j (subAt s0 ord j) = true
  chainsNew : ∀ j, k ≤ j → j < s0.numLevels → j ≤ lvl →
    linkedAt s2 j
      (0 :: bPart s0 ord v j ++ s0.nodes.length :: dPart s0 ord v j) = true

theorem nodeTest_congr [LinearOrder α] {s2 s0 : SkipList α} {x : Nat}
    (h : valOf s2 x = valOf s0 x) (v : α) :
    nodeTest s2 v x = nodeTest s0 v x := by
  simp [nodeTest, h]

theorem bPart_succ_filter [LinearOrder α] (s : SkipList α) (ord : List Nat)
    (v : α) (k : Nat) :
    bPart s ord v (k + 1) =
      (bPart s ord v k).filter (fun i => decide (k + 1 ≤ levelOf s i)) := by
  unfold bPart
  rw [List.filter_filter]
  exact (List.filter_congr (fun a _ => by
    by_cases h : k + 1 ≤ levelOf s a
    · have h2 : k ≤ levelOf s a := by omega
      simp [h, h2]
    · simp [h])).symm

theorem bPart_top_empty [LinearOrder α] {s : SkipList α}
    {xs : List (α × Nat)} {ord : List Nat} (hrep : repOk s xs ord = true)
    (v : α) : bPart s ord v s.numLevels = [] := by
  rw [bPart, List.filter_eq_nil_iff]
  intro a ha
  have := rep_level_lt hrep ((List.takeWhile_sublist _).mem ha)
  simp
  omega

theorem bPart_zero [LinearOrder α] (s : SkipList α) (ord : List Nat)
    (v : α) : bPart s ord v 0 = ord.takeWhile (nodeTest s v) := by
  rw [bPart]
  exact List.filter_eq_self.mpr (fun a _ => by simp)

theorem dPart_zero [LinearOrder α] (s : SkipList α) (ord : List Nat)
    (v : α) : dPart s ord v 0 = ord.dropWhile (nodeTest s v) := by
  rw [dPart]
  exact List.filter_eq_self.mpr (fun a _ => by simp)

theorem subAt_eq_parts [LinearOrder α] {s : SkipList α}
    {xs : List (α × Nat)} {ord : List Nat} (hrep : repOk s xs ord = true)
    {k : Nat} (hk : k < s.numLevels) (v : α) :
    subAt s ord k = 0 :: (bPart s ord v k ++ dPart s ord v k) :=
  subAt_decomp hrep hk v

theorem subAt_nodup [LinearOrder α] {s : SkipList α} {xs : List (α × Nat)}
    {ord : List Nat} (hrep : repOk s xs ord = true) (k : Nat) :
    (subAt s ord k).Nodup :=
  ((repOk_iff.mp hrep).2.2.2.2.1).sublist (List.filter_sublist _)

theorem subAt_mem_bound [LinearOrder α] {s : SkipList α}
    {xs : List (α × Nat)} {ord : List Nat} (hrep : repOk s xs ord = true)
    {k a : Nat} (ha : a ∈ subAt s ord k) : a < s.nodes.length :=
  (repOk_iff.mp hrep).2.2.2.2.2.1 a (List.mem_of_mem_filter ha)

theorem valOf_alloc_lt {s : SkipList α} {v : α} {lvl i : Nat}
    (h : i < s.nodes.length) :
    valOf (allocState s v lvl) i = valOf s i := by
  simp only [allocState, valOf]
  rw [getNode_append_lt h]

theorem levelOf_alloc_lt {s : SkipList α} {v : α} {lvl i : Nat}
    (h : i < s.nodes.length) :
    levelOf (allocState s v lvl) i = levelOf s i := by
  simp only [allocState, levelOf]
  rw [getNode_append_lt h]

theorem nextLenOf_alloc_lt {s : SkipList α} {v : α} {lvl i : Nat}
    (h : i < s.nodes.length) :
    nextLenOf (allocState s v lvl) i = nextLenOf s i := by
  simp only [allocState, nextLenOf]
  rw [getNode_append_lt h]

theorem getNextLink_alloc_lt {s : SkipList α} {v : α} {lvl i k : Nat}
    (h : i < s.nodes.length) :
    getNextLink (allocState s v lvl) i k = getNextLink s i k := by
  simp only [allocState]
  exact getNextLink_append_lt h

theorem getNode_alloc_self {s : SkipList α} {v : α} {lvl : Nat} :
    getNode (allocState s v lvl) s.nodes.length = some (newNode s v lvl) := by
  simp only [allocState]
  exact getNode_append_self

theorem rep_nextLenOf [LinearOrder α] {s : SkipList α} {xs : List (α × Nat)}
    {ord : List Nat} (hrep : repOk s xs ord = true) {i : Nat}
    (hi : i ∈ 0 :: ord) : nextLenOf s i = some s.numLevels := by
  rcases List.mem_cons.mp hi with rfl | hi
  · exact (headOk_iff.mp (repOk_iff.mp hrep).2.1).2.2
  · obtain ⟨x, hx, _⟩ := rep_mem_facts hrep hi
    exact (rep_zip_facts hrep _ hx).2.2.2.1

theorem rep_aboveNone [LinearOrder α] {s : SkipList α} {xs : List (α × Nat)}
    {ord : List Nat} (hrep : repOk s xs ord = true) {i : Nat}
    (hi : i ∈ 0 :: ord) {j : Nat} (hj : j < s.numLevels)
    (hlev : levelOf s i < j) : getNextLink s i j = some none := by
  rcases List.mem_cons.mp hi with rfl | hi
  · have := (headOk_iff.mp (repOk_iff.mp hrep).2.1).2.1
    omega
  · obtain ⟨x, hx, _, hl2, _⟩ := rep_mem_facts hrep hi
    exact (rep_zip_facts hrep _ hx).2.2.2.2 j hj (show x.2 < j by omega)

theorem midInv_alloc [LinearOrder α] {s0 : SkipList α} {xs : List (α × Nat)}
    {ord : List Nat} (hrep : repOk s0 xs ord = true) (v : α) {lvl : Nat}
    (hlvl : lvl < s0.numLevels) :
    MidInv s0 xs ord v lvl s0.numLevels (allocState s0 v lvl) := by
  have hbound : ∀ i ∈ 0 :: ord, i < s0.nodes.length :=
    (repOk_iff.mp hrep).2.2.2.2.2.1
  refine ⟨rfl, rfl, by simp [allocState], ?_, ?_, ?_, ?_, ?_, ?_, ?_, ?_, ?_, ?_⟩
  · intro i hi
    exact valOf_alloc_lt (hbound i hi)
  · intro i hi
    exact levelOf_alloc_lt (hbound i hi)
  · intro i hi
    rw [nextLenOf_alloc_lt (hbound i hi)]
    exact rep_nextLenOf hrep hi
  · rw [valOf_eq getNode_alloc_self]
    rfl
  · rw [levelOf_eq getNode_alloc_self]
    rfl
  · rw [nextLenOf_eq getNode_alloc_self]
    simp [newNode]
  · intro i hi j hj hlev
    rw [getNextLink_alloc_lt (hbound i hi)]
    rw [levelOf_alloc_lt (hbound i hi)] at hlev
    exact rep_aboveNone hrep hi hj hlev
  · intro j hj _
    rw [getNextLink_eq getNode_alloc_self]
    simp [newNode, List.getElem?_replicate, hj]
  · intro j hj _
    rw [linkedAt_congr (s := s0) (fun a ha =>
      getNextLink_alloc_lt (subAt_mem_bound hrep ha))]
    exact (repOk_iff.mp hrep).2.2.2.2.2.2.2.2 j hj
  · intro j hj hjN _
    omega

theorem bPart_subset_ord [LinearOrder α] {s : SkipList α} {ord : List Nat}
    {v : α} {k x : Nat} (hx : x ∈ bPart s ord v k) : x ∈ ord :=
  (List.takeWhile_sublist _).subset (List.mem_of_mem_filter hx)

theorem dPart_subset_ord [LinearOrder α] {s : SkipList α} {ord : List Nat}
    {v : α} {k x : Nat} (hx : x ∈ dPart s ord v k) : x ∈ ord :=
  (List.dropWhile_sublist _).subset (List.mem_of_mem_filter hx)

theorem linkedAt_next_at_lastD {s : SkipList α} {k : Nat} {B D : List Nat}
    (hlink : linkedAt s k (0 :: B ++ D) = true) :
    getNextLink s (lastD B 0) k = some D.head? := by
  rcases lastD_cases B 0 with hB | ⟨B', hB⟩
  · rw [hB]
    rw [hB] at hlink
    simpa [lastD] using linkedAt_next_of_split ([] : List Nat)
      (c := 0) (S := D) (by simpa using hlink)
  · have hre : (0 :: B ++ D) = (0 :: B') ++ (lastD B 0 :: D) := by
      conv_lhs => rw [hB]
      simp
    rw [hre] at hlink
    exact linkedAt_next_of_split (0 :: B') hlink

theorem linkedAt_splice_at_lastD {s s' : SkipList α} {k w : Nat}
    {B D : List Nat}
    (hlink : linkedAt s k (0 :: B ++ D) = true)
    (hnodup : (0 :: B ++ D).Nodup)
    (hwfresh : ∀ x ∈ 0 :: B ++ D, x ≠ w)
    (hcong : ∀ x, x ≠ lastD B 0 → x ≠ w →
      getNextLink s' x k = getNextLink s x k)
    (ha : getNextLink s' (lastD B 0) k = some (some w))
    (hw : getNextLink s' w k = some D.head?) :
    linkedAt s' k (0 :: B ++ w :: D) = true := by
  have hw0 : w ≠ 0 := fun he => hwfresh 0 (by simp) he.symm
  rcases lastD_cases B 0 with hB | ⟨B', hB⟩
  · subst hB
    have h0D : (0 : Nat) ∉ D := by
      have h9 := hnodup
      simp only [List.nil_append] at h9
      exact (List.nodup_cons.mp h9).1
    have hwD : w ∉ D := fun hwd => hwfresh w (by simp [hwd]) rfl
    have hlink' : linkedAt s k (([] : List Nat) ++ 0 :: D) = true := by
      simpa using hlink
    have hmain := @linkedAt_splice α s s' k w ([] : List Nat) 0 D hlink'
      (fun x hx h1 h2 => hcong x (by simpa [lastD] using h1) h2)
      (by simpa [lastD] using ha) hw
      (by simp) h0D (by simp) hwD hw0
    simpa using hmain
  · have hre : (0 :: B ++ D) = (0 :: B') ++ (lastD B 0 :: D) := by
      conv_lhs => rw [hB]
      simp
    have hre2 : (0 :: B ++ w :: D) = (0 :: B') ++ (lastD B 0 :: w :: D) := by
      conv_lhs => rw [hB]
      simp
    rw [hre] at hlink hnodup hwfresh
    rw [hre2]
    have hnd := List.nodup_middle.mp hnodup
    have hcP : lastD B 0 ∉ 0 :: B' := fun hmem =>
      (List.nodup_cons.mp hnd).1 (List.mem_append_left _ hmem)
    have hcD : lastD B 0 ∉ D := fun hmem =>
      (List.nodup_cons.mp hnd).1 (List.mem_append_right _ hmem)
    have hwP : w ∉ 0 :: B' := fun hmem =>
      hwfresh w (List.mem_append_left _ hmem) rfl
    have hwD : w ∉ D := fun hmem =>
      hwfresh w (List.mem_append_right _ (List.mem_cons_of_mem _ hmem)) rfl
    have hwc : w ≠ lastD B 0 := fun he =>
      hwfresh w (List.mem_append_right _ (he ▸ List.mem_cons_self _ _)) rfl
    exact linkedAt_splice (0 :: B') hlink
      (fun x hx h1 h2 => hcong x h1 h2) ha hw hcP hcD hwP hwD hwc

theorem insertLoop_run [LinearOrder α] {s0 : SkipList α} {xs : List (α × Nat)}
    {ord : List Nat} (hrep : repOk s0 xs ord = true) (v : α) {lvl : Nat}
    (hlvl : lvl < s0.numLevels) :
    ∀ k, 1 ≤ k → k ≤ s0.numLevels → ∀ s2, MidInv s0 xs ord v lvl k s2 →
    ∃ s3, insertLoop s2 v s0.nodes.length lvl
        (lastD (bPart s0 ord v k) 0) k =
        some (s3, lastD (bPart s0 ord v 0) 0, (dPart s0 ord v 0).head?) ∧
      MidInv s0 xs ord v lvl 0 s3 := by
  intro k
  induction k with
  | zero => intro h1 _ _ _; omega
  | succ k ih =>
    intro _ hkN s2 hmid
    have hk : k < s0.numLevels := by omega
    have hk2 : k < s2.numLevels := by rw [hmid.numLevels]; omega
    have hbound : ∀ i ∈ 0 :: ord, i < s0.nodes.length :=
      (repOk_iff.mp hrep).2.2.2.2.2.1
    have hchain : linkedAt s2 k
        (0 :: (bPart s0 ord v k ++ dPart s0 ord v k)) = true := by
      have h9 := hmid.chainsOld k hk (Or.inl (by omega))
      rwa [subAt_eq_parts hrep hk v] at h9
    have hBmem : ∀ x ∈ bPart s0 ord v k, x ∈ 0 :: ord :=
      fun x hx => List.mem_cons_of_mem 0 (bPart_subset_ord hx)
    have hDmem : ∀ x ∈ dPart s0 ord v k, x ∈ 0 :: ord :=
      fun x hx => List.mem_cons_of_mem 0 (dPart_subset_ord hx)
    have hwalk : proceed_at_level_while s2 (lastD (bPart s0 ord v (k + 1)) 0)
        k (goPred v) = some (lastD (bPart s0 ord v k) 0) := by
      apply walk_level hk2 hchain
      · intro x hx
        rw [nodeTest_congr (hmid.valOld x (hBmem x hx)) v]
        exact List.mem_takeWhile_imp (List.mem_of_mem_filter hx)
      · intro x hx
        rw [nodeTest_congr (hmid.valOld x (hDmem x hx)) v]
        exact rep_dropWhile_false hrep v x (List.mem_of_mem_filter hx)
      · have h1 := List.length_filter_le
          (fun i => decide (k ≤ levelOf s0 i)) (ord.takeWhile (nodeTest s0 v))
        have h2 := List.length_filter_le
          (fun i => decide (k ≤ levelOf s0 i)) (ord.dropWhile (nodeTest s0 v))
        have h3 : (ord.takeWhile (nodeTest s0 v)).length +
            (ord.dropWhile (nodeTest s0 v)).length = ord.length := by
          rw [← List.length_append, List.takeWhile_append_dropWhile]
        have h4 : s0.nodes.length = ord.length + 1 :=
          (repOk_iff.mp hrep).2.2.2.1
        have h5 := hmid.nodesLen
        simp only [bPart, dPart]
        omega
      · rw [bPart_succ_filter]
        exact lastD_filter_cases
    have hc'mem : lastD (bPart s0 ord v k) 0 ∈ 0 :: ord := by
      rcases List.mem_cons.mp (lastD_mem_cons (bPart s0 ord v k) 0) with h | h
      · rw [h]; exact List.mem_cons_self 0 ord
      · exact hBmem _ h
    have hc'new : lastD (bPart s0 ord v k) 0 ≠ s0.nodes.length :=
      Nat.ne_of_lt (hbound _ hc'mem)
    have hc'lev : k ≤ levelOf s0 (lastD (bPart s0 ord v k) 0) := by
      rcases List.mem_cons.mp (lastD_mem_cons (bPart s0 ord v k) 0) with h | h
      · rw [h, (headOk_iff.mp (repOk_iff.mp hrep).2.1).2.1]
        omega
      · have h2 := (List.mem_filter.mp h).2
        simpa using h2
    have hnextc : getNextLink s2 (lastD (bPart s0 ord v k) 0) k =
        some ((dPart s0 ord v k).head?) := linkedAt_next_at_lastD hchain
    simp only [insertLoop, hwalk]
    by_cases hkl : k ≤ lvl
    · rw [if_pos hkl]
      obtain ⟨s2a, hs2a⟩ := setNext_isSome (some s0.nodes.length)
        (hmid.lenOld _ hc'mem) hk
      have hA := setNext_shape hs2a
      obtain ⟨s2b, hs2b⟩ := setNext_isSome ((dPart s0 ord v k).head?)
        (by rw [hA.2.2.2.2.2 s0.nodes.length]; exact hmid.lenNew) hk
      have hB2 := setNext_shape hs2b
      have hval2 : ∀ j, valOf s2b j = valOf s2 j :=
        fun j => (hB2.2.2.2.1 j).trans (hA.2.2.2.1 j)
      have hlev2 : ∀ j, levelOf s2b j = levelOf s2 j :=
        fun j => (hB2.2.2.2.2.1 j).trans (hA.2.2.2.2.1 j)
      have hlen2 : ∀ j, nextLenOf s2b j = nextLenOf s2 j :=
        fun j => (hB2.2.2.2.2.2 j).trans (hA.2.2.2.2.2 j)
      have hnum2 : s2b.numLevels = s2.numLevels := hB2.1.trans hA.1
      have hlenn2 : s2b.nodes.length = s2.nodes.length :=
        hB2.2.2.1.trans hA.2.2.1
      have hlen02 : s2b.len = s2.len := hB2.2.1.trans hA.2.1
      have hlinkne : ∀ x m, (x ≠ lastD (bPart s0 ord v k) 0 ∨ m ≠ k) →
          (x ≠ s0.nodes.length ∨ m ≠ k) →
          getNextLink s2b x m = getNextLink s2 x m :=
        fun x m h1 h2 =>
          (setNext_getNextLink_ne hs2b h2).trans (setNext_getNextLink_ne hs2a h1)
      have hlinkc' : getNextLink s2b (lastD (bPart s0 ord v k) 0) k =
          some (some s0.nodes.length) := by
        rw [setNext_getNextLink_ne hs2b (Or.inl hc'new)]
        exact setNext_getNextLink_self hs2a
      have hlinknew : getNextLink s2b s0.nodes.length k =
          some ((dPart s0 ord v k).head?) := setNext_getNextLink_self hs2b
      have hmid' : MidInv s0 xs ord v lvl k s2b := by
        refine ⟨hnum2.trans hmid.numLevels, hlen02.trans hmid.len,
          hlenn2.trans hmid.nodesLen, ?_, ?_, ?_, ?_, ?_, ?_, ?_, ?_, ?_, ?_⟩
        · intro i hi; rw [hval2 i]; exact hmid.valOld i hi
        · intro i hi; rw [hlev2 i]; exact hmid.levelOld i hi
        · intro i hi; rw [hlen2 i]; exact hmid.lenOld i hi
        · rw [hval2]; exact hmid.valNew
        · rw [hlev2]; exact hmid.levelNew
        · rw [hlen2]; exact hmid.lenNew
        · intro i hi j hj hlev
          rw [hlev2 i] at hlev
          have hne2 : i ≠ s0.nodes.length := Nat.ne_of_lt (hbound i hi)
          have hdisj : i ≠ lastD (bPart s0 ord v k) 0 ∨ j ≠ k := by
            by_cases hic : i = lastD (bPart s0 ord v k) 0
            · right
              intro hjk
              have h7 : levelOf s0 i < j := by
                rw [← hmid.levelOld i hi]
                exact hlev
              rw [hic, hjk] at h7
              omega
            · exact Or.inl hic
          rw [hlinkne i j hdisj (Or.inl hne2)]
          exact hmid.aboveOld i hi j hj hlev
        · intro j hj hlvlj
          have hjk : j ≠ k := by omega
          rw [hlinkne _ j (Or.inr hjk) (Or.inr hjk)]
          exact hmid.aboveNew j hj hlvlj
        · intro j hj hdis
          have hjk : j ≠ k := by rcases hdis with h | h <;> omega
          rw [linkedAt_congr (s := s2)
            (fun a _ => hlinkne a j (Or.inr hjk) (Or.inr hjk))]
          apply hmid.chainsOld j hj
          rcases hdis with h | h
          · exact Or.inl (by omega)
          · exact Or.inr h
        · intro j hjge hj hjlvl
          by_cases hjk : j = k
          · subst hjk
            apply linkedAt_splice_at_lastD hchain
            · have h9 := subAt_nodup hrep j
              rwa [subAt_eq_parts hrep hj v] at h9
            · intro x hx
              have hxmem : x ∈ subAt s0 ord j := by
                rw [subAt_eq_parts hrep hj v]
                exact hx
              exact Nat.ne_of_lt (subAt_mem_bound hrep hxmem)
            · intro x h1 h2
              exact hlinkne x j (Or.inl h1) (Or.inl h2)
            · exact hlinkc'
            · exact hlinknew
          · rw [linkedAt_congr (s := s2)
              (fun a _ => hlinkne a j (Or.inr hjk) (Or.inr hjk))]
            exact hmid.chainsNew j (by omega) hj hjlvl
      simp only [hnextc, hs2a, hs2b]
      by_cases hk0 : k = 0
      · subst hk0
        rw [if_pos rfl]
        exact ⟨s2b, rfl, hmid'⟩
      · rw [if_neg hk0]
        exact ih (by omega) (by omega) s2b hmid'
    · rw [if_neg hkl]
      have hmid' : MidInv s0 xs ord v lvl k s2 := by
        refine ⟨hmid.numLevels, hmid.len, hmid.nodesLen, hmid.valOld,
          hmid.levelOld, hmid.lenOld, hmid.valNew, hmid.levelNew, hmid.lenNew,
          hmid.aboveOld, hmid.aboveNew, ?_, ?_⟩
        · intro j hj hdis
          apply hmid.chainsOld j hj
          rcases hdis with h | h
          · exact Or.inl (by omega)
          · exact Or.inr h
        · intro j hjge hj hjlvl
          omega
      exact ih (by omega) (by omega) s2 hmid'

theorem trailingOnesAux_congr :
    ∀ (f1 f2 m : Nat), m < f1 → m < f2 →
    trailingOnesAux f1 m = trailingOnesAux f2 m := by
  intro f1
  induction f1 with
  | zero => intro f2 m h1 _; omega
  | succ f1 ih =>
    intro f2 m h1 h2
    obtain ⟨g, rfl⟩ : ∃ g, f2 = g + 1 := ⟨f2 - 1, by omega⟩
    by_cases hpar : m % 2 = 1
    · simp only [trailingOnesAux, hpar, if_true]
      rw [ih g (m / 2) (by omega) (by omega)]
    · simp only [trailingOnesAux, hpar]
      simp [hpar]

theorem trailingOnes_even {n : Nat} (h : ¬ n % 2 = 1) : trailingOnes n = 0 := by
  rw [trailingOnes]
  simp [trailingOnesAux, h]

theorem trailingOnes_odd {n : Nat} (h : n % 2 = 1) :
    trailingOnes n = trailingOnes (n / 2) + 1 := by
  show trailingOnesAux (n + 1) n = trailingOnesAux (n / 2 + 1) (n / 2) + 1
  have hstep : trailingOnesAux (n + 1) n = trailingOnesAux n (n / 2) + 1 := by
    simp only [trailingOnesAux, h, if_true]
  rw [hstep, trailingOnesAux_congr n (n / 2 + 1) (n / 2) (by omega) (by omega)]

theorem trailingOnes_bound : ∀ (m y : Nat), y < 2 ^ m →
    trailingOnes y ≤ m ∧ (trailingOnes y = m ↔ y = 2 ^ m - 1) := by
  intro m
  induction m with
  | zero =>
    intro y hy
    have hy0 : y = 0 := by
      have : (2 : Nat) ^ 0 = 1 := by norm_num
      omega
    subst hy0
    have h0 : trailingOnes 0 = 0 := trailingOnes_even (by omega)
    rw [h0]
    norm_num
  | succ m ih =>
    intro y hy
    have h4 : 2 ^ (m + 1) = 2 * 2 ^ m := by ring
    have hpow : 1 ≤ 2 ^ m := Nat.one_le_two_pow
    by_cases hpar : y % 2 = 1
    · rw [trailingOnes_odd hpar]
      have hy2 : y / 2 < 2 ^ m := by omega
      obtain ⟨hle, hiff⟩ := ih (y / 2) hy2
      refine ⟨by omega, ?_, ?_⟩
      · intro h
        have h5 : trailingOnes (y / 2) = m := by omega
        have h3 := hiff.mp h5
        omega
      · intro h
        have h5 : y / 2 = 2 ^ m - 1 := by omega
        have h6 := hiff.mpr h5
        omega
    · rw [trailingOnes_even hpar]
      refine ⟨by omega, ?_, ?_⟩
      · intro h
        omega
      · intro h
        subst h
        omega

theorem gen_level_eq {N : Nat} (h1 : 1 ≤ N) (h2 : N ≤ 64) (rand : Nat) :
    gen_level N rand =
      some (trailingOnes ((rand % 2 ^ 64) &&& (2 ^ (N - 1) - 1))) := by
  have h3 : N - 1 < 64 := by omega
  simp [gen_level, checkedSub, checkedShl1, h1, h3]

theorem gen_level_lt {N : Nat} (h1 : 1 ≤ N) (h2 : N ≤ 64) (rand : Nat) :
    ∃ lvl, gen_level N rand = some lvl ∧ lvl < N := by
  refine ⟨_, gen_level_eq h1 h2 rand, ?_⟩
  have hmask : (rand % 2 ^ 64) &&& (2 ^ (N - 1) - 1) < 2 ^ (N - 1) := by
    have h3 := Nat.and_le_right (n := rand % 2 ^ 64) (m := 2 ^ (N - 1) - 1)
    have hpow : 1 ≤ 2 ^ (N - 1) := Nat.one_le_two_pow
    omega
  have h5 := (trailingOnes_bound (N - 1) _ hmask).1
  omega

theorem midInv_setPrev [LinearOrder α] {s0 : SkipList α} {xs : List (α × Nat)}
    {ord : List Nat} {v : α} {lvl : Nat} {s s' : SkipList α} {i : Nat}
    {p : Link} (hm : MidInv s0 xs ord v lvl 0 s)
    (h : setPrev s i p = some s') : MidInv s0 xs ord v lvl 0 s' := by
  obtain ⟨h1, h2, h3, h4, h5, h6, h7⟩ := setPrev_shape h
  refine ⟨h1.trans hm.numLevels, h2.trans hm.len, h3.trans hm.nodesLen,
    ?_, ?_, ?_, ?_, ?_, ?_, ?_, ?_, ?_, ?_⟩
  · intro a ha; rw [h4 a]; exact hm.valOld a ha
  · intro a ha; rw [h5 a]; exact hm.levelOld a ha
  · intro a ha; rw [h6 a]; exact hm.lenOld a ha
  · rw [h4]; exact hm.valNew
  · rw [h5]; exact hm.levelNew
  · rw [h6]; exact hm.lenNew
  · intro a ha j hj hlev
    rw [h5 a] at hlev
    rw [h7 a j]
    exact hm.aboveOld a ha j hj hlev
  · intro j hj hlv
    rw [h7 _ j]
    exact hm.aboveNew j hj hlv
  · intro j hj hdis
    rw [linkedAt_congr (s := s) (fun a _ => h7 a j)]
    exact hm.chainsOld j hj hdis
  · intro j hjge hj hjlvl
    rw [linkedAt_congr (s := s) (fun a _ => h7 a j)]
    exact hm.chainsNew j hjge hj hjlvl

theorem pairwise_le_insert_cut [LinearOrder α] :
    ∀ {l : List α}, l.Pairwise (· ≤ ·) → ∀ (v : α),
    (l.take ((l.takeWhile (fun a => decide (a ≤ v))).length) ++
      v :: l.drop ((l.takeWhile (fun a => decide (a ≤ v))).length)).Pairwise
      (· ≤ ·) := by
  intro l
  induction l with
  | nil => intro _ v; simp
  | cons a t ih =>
    intro hsort v
    obtain ⟨hle, hsort'⟩ := List.pairwise_cons.mp hsort
    by_cases hav : a ≤ v
    · rw [List.takeWhile_cons, if_pos (by simpa using hav)]
      simp only [List.length_cons, List.take_succ_cons, List.drop_succ_cons,
        List.cons_append]
      rw [List.pairwise_cons]
      constructor
      · intro b hb
        rcases List.mem_append.mp hb with hb | hb
        · exact hle b ((List.take_sublist _ _).subset hb)
        · rcases List.mem_cons.mp hb with rfl | hb
          · exact hav
          · exact hle b ((List.drop_sublist _ _).subset hb)
      · exact ih hsort' v
    · rw [List.takeWhile_cons, if_neg (by simpa using hav)]
      simp only [List.length_nil, List.take_zero, List.drop_zero,
        List.nil_append]
      rw [List.pairwise_cons]
      refine ⟨?_, hsort⟩
      intro b hb
      have hva : v ≤ a := le_of_not_le hav
      rcases List.mem_cons.mp hb with rfl | hb
      · exact hva
      · exact le_trans hva (hle b hb)

theorem allocState_numLevels {s : SkipList α} {v : α} {lvl : Nat} :
    (allocState s v lvl).numLevels = s.numLevels := rfl

theorem insert_eq_steps [LinearOrder α] {s0 : SkipList α} {v : α}
    {rand lvl : Nat} (hgen : gen_level s0.numLevels rand = some lvl) :
    insert s0 v rand =
      match insertLoop (allocState s0 v lvl) v s0.nodes.length lvl 0
          (allocState s0 v lvl).numLevels with
      | none => none
      | some (s2, prevIdx, oldNext) =>
        match setPrev s2 s0.nodes.length (some prevIdx) with
        | none => none
        | some s3 =>
          match oldNext with
          | some j => setPrev s3 j (some s0.nodes.length)
          | none => some s3 := by
  simp only [insert, hgen, allocState, newNode]

theorem repOk_final [LinearOrder α] {s0 : SkipList α} {xs : List (α × Nat)}
    {ord : List Nat} (hrep : repOk s0 xs ord = true) {v : α} {lvl : Nat}
    (hlvl : lvl < s0.numLevels) {sF : SkipList α}
    (hm : MidInv s0 xs ord v lvl 0 sF) :
    repOk sF (xs.take (cutLen xs v) ++ (v, lvl) :: xs.drop (cutLen xs v))
      (ord.take (cutLen xs v) ++
        s0.nodes.length :: ord.drop (cutLen xs v)) = true := by
  obtain ⟨hN1, hhead0, hlen0, hnlen0, hnodup0, hbound0, hzip0, hpair0, hchains0⟩ :=
    repOk_iff.mp hrep
  have hPxs : cutLen xs v ≤ xs.length := cutLen_le xs v
  have hPord : cutLen xs v ≤ ord.length := by omega
  have htw : ord.takeWhile (nodeTest s0 v) = ord.take (cutLen xs v) :=
    rep_takeWhile_take hrep v
  have hdw : ord.dropWhile (nodeTest s0 v) = ord.drop (cutLen xs v) := by
    have h1 : ord.takeWhile (nodeTest s0 v) ++ ord.dropWhile (nodeTest s0 v) = ord :=
      List.takeWhile_append_dropWhile _ _
    have h2 : ord.take (cutLen xs v) ++ ord.drop (cutLen xs v) = ord :=
      List.take_append_drop _ ord
    rw [htw] at h1
    exact List.append_cancel_left (h1.trans h2.symm)
  have hfresh : ∀ i ∈ 0 :: ord, i ≠ s0.nodes.length :=
    fun i hi => Nat.ne_of_lt (hbound0 i hi)
  have hperm : List.Perm
      (ord.take (cutLen xs v) ++ s0.nodes.length :: ord.drop (cutLen xs v))
      (s0.nodes.length :: ord) := by
    have h1 : List.Perm
        (ord.take (cutLen xs v) ++ s0.nodes.length :: ord.drop (cutLen xs v))
        (s0.nodes.length :: (ord.take (cutLen xs v) ++ ord.drop (cutLen xs v))) :=
      List.perm_middle
    rwa [List.take_append_drop] at h1
  have hold : ∀ p ∈ ord.zip xs, nodeOkAt sF p.2 p.1 = true := by
    intro p hp
    obtain ⟨hv1, hv2, hv3, hv4, hv5⟩ := rep_zip_facts hrep p hp
    have hpmem : p.1 ∈ 0 :: ord := List.mem_cons_of_mem 0 (List.of_mem_zip hp).1
    rw [nodeOkAt_iff]
    refine ⟨?_, ?_, ?_, ?_, ?_⟩
    · rw [hm.valOld _ hpmem]; exact hv1
    · rw [hm.levelOld _ hpmem]; exact hv2
    · rw [hm.numLevels]; exact hv3
    · rw [hm.lenOld _ hpmem, hm.numLevels]
    · intro j hj hxj
      rw [hm.numLevels] at hj
      apply hm.aboveOld _ hpmem j hj
      rw [hm.levelOld _ hpmem, hv2]
      exact hxj
  rw [repOk_iff]
  refine ⟨?_, ?_, ?_, ?_, ?_, ?_, ?_, ?_, ?_⟩
  · rw [hm.numLevels]; exact hN1
  · rw [headOk_iff]
    have hh := headOk_iff.mp hhead0
    refine ⟨?_, ?_, ?_⟩
    · rw [hm.valOld 0 (by simp)]; exact hh.1
    · rw [hm.levelOld 0 (by simp), hm.numLevels]; exact hh.2.1
    · rw [hm.lenOld 0 (by simp), hm.numLevels]
  · simp only [List.length_append, List.length_cons, List.length_take,
      List.length_drop]
    omega
  · simp only [List.length_append, List.length_cons, List.length_take,
      List.length_drop, hm.nodesLen, hnlen0]
    omega
  · have hnodup1 : (s0.nodes.length :: ord).Nodup := by
      rw [List.nodup_cons]
      exact ⟨fun hmem => hfresh _ (List.mem_cons_of_mem 0 hmem) rfl,
        (List.nodup_cons.mp hnodup0).2⟩
    rw [List.nodup_cons]
    constructor
    · intro hmem
      rw [hperm.mem_iff] at hmem
      rcases List.mem_cons.mp hmem with h | h
      · omega
      · exact (List.nodup_cons.mp hnodup0).1 h
    · exact hperm.nodup_iff.mpr hnodup1
  · intro i hi
    rcases List.mem_cons.mp hi with rfl | hi
    · rw [hm.nodesLen]; omega
    · rw [hperm.mem_iff] at hi
      rw [hm.nodesLen]
      rcases List.mem_cons.mp hi with rfl | hi
      · omega
      · have := hbound0 i (List.mem_cons_of_mem 0 hi)
        omega
  · intro p hp
    have hlentake : (ord.take (cutLen xs v)).length =
        (xs.take (cutLen xs v)).length := by
      simp only [List.length_take]
      omega
    rw [List.zip_append hlentake] at hp
    rcases List.mem_append.mp hp with hp | hp
    · rw [zip_take_take] at hp
      exact hold p (List.mem_of_mem_take hp)
    · simp only [List.zip_cons_cons] at hp
      rcases List.mem_cons.mp hp with rfl | hp
      · rw [nodeOkAt_iff]
        refine ⟨hm.valNew, hm.levelNew,
          by rw [hm.numLevels]; exact (show lvl + 1 ≤ s0.numLevels by omega),
          by rw [hm.lenNew, hm.numLevels], ?_⟩
        intro j hj hxj
        rw [hm.numLevels] at hj
        exact hm.aboveNew j hj hxj
      · rw [zip_drop_drop] at hp
        exact hold p (List.mem_of_mem_drop hp)
  · have hpure := pairwise_le_insert_cut
      (List.pairwise_map.mpr hpair0) v
    have hmapeq : ((xs.take (cutLen xs v) ++
        (v, lvl) :: xs.drop (cutLen xs v)).map Prod.fst)
        = (xs.map Prod.fst).take (cutLen xs v) ++
          v :: (xs.map Prod.fst).drop (cutLen xs v) := by
      simp [List.map_take, List.map_drop]
    have h2 : ((xs.take (cutLen xs v) ++
        (v, lvl) :: xs.drop (cutLen xs v)).map Prod.fst).Pairwise (· ≤ ·) := by
      rw [hmapeq]
      exact hpure
    exact List.pairwise_map.mp h2
  · intro k hk
    rw [hm.numLevels] at hk
    have hfil1 : (ord.take (cutLen xs v)).filter
        (fun i => decide (k ≤ levelOf sF i)) = bPart s0 ord v k := by
      rw [← htw]
      exact List.filter_congr (fun a ha => by
        rw [hm.levelOld a (List.mem_cons_of_mem 0
          ((List.takeWhile_sublist _).subset ha))])
    have hfil2 : (ord.drop (cutLen xs v)).filter
        (fun i => decide (k ≤ levelOf sF i)) = dPart s0 ord v k := by
      rw [← hdw]
      exact List.filter_congr (fun a ha => by
        rw [hm.levelOld a (List.mem_cons_of_mem 0
          ((List.dropWhile_sublist _).subset ha))])
    have hhd : decide (k ≤ levelOf sF 0) = true := by
      rw [hm.levelOld 0 (by simp), (headOk_iff.mp hhead0).2.1]
      simp
      omega
    by_cases hkl : k ≤ lvl
    · have hsub : subAt sF (ord.take (cutLen xs v) ++
          s0.nodes.length :: ord.drop (cutLen xs v)) k =
          0 :: (bPart s0 ord v k ++ s0.nodes.length :: dPart s0 ord v k) := by
        unfold subAt
        rw [List.filter_cons, if_pos hhd, List.filter_append, List.filter_cons,
          if_pos (by rw [hm.levelNew]; simpa using hkl), hfil1, hfil2]
      rw [hsub]
      exact hm.chainsNew k (Nat.zero_le k) hk hkl
    · have hsub : subAt sF (ord.take (cutLen xs v) ++
          s0.nodes.length :: ord.drop (cutLen xs v)) k = subAt s0 ord k := by
        unfold subAt
        rw [List.filter_cons, if_pos hhd, List.filter_append, List.filter_cons,
          if_neg (by rw [hm.levelNew]; simpa using hkl), hfil1, hfil2]
        exact (subAt_eq_parts hrep hk v).symm
      rw [hsub]
      exact hm.chainsOld k hk (Or.inr (by omega))

theorem insert_spec [LinearOrder α] {s0 : SkipList α} {xs : List (α × Nat)}
    {ord : List Nat} (hrep : repOk s0 xs ord = true)
    (hN : s0.numLevels ≤ 64) (v : α) (rand : Nat) :
    ∃ lvl s', gen_level s0.numLevels rand = some lvl ∧ lvl < s0.numLevels ∧
      insert s0 v rand = some s' ∧
      repOk s' (xs.take (cutLen xs v) ++ (v, lvl) :: xs.drop (cutLen xs v))
        (ord.take (cutLen xs v) ++
          s0.nodes.length :: ord.drop (cutLen xs v)) = true ∧
      s'.numLevels = s0.numLevels ∧ s'.len = s0.len ∧
      s'.nodes.length = s0.nodes.length + 1 := by
  have hN1 : 1 ≤ s0.numLevels := (repOk_iff.mp hrep).1
  obtain ⟨lvl, hgen, hlvl⟩ := gen_level_lt hN1 hN rand
  have hmid0 := midInv_alloc hrep v hlvl
  obtain ⟨s3, hloop, hmid3⟩ := insertLoop_run hrep v hlvl s0.numLevels hN1
    le_rfl (allocState s0 v lvl) hmid0
  rw [show lastD (bPart s0 ord v s0.numLevels) 0 = 0 by
    rw [bPart_top_empty hrep v]; rfl] at hloop
  obtain ⟨n3, hn3, _⟩ := getNode_isSome_of_nextLen hmid3.lenNew
  obtain ⟨s4, hs4⟩ := setPrev_isSome (some (lastD (bPart s0 ord v 0) 0)) hn3
  have hmid4 := midInv_setPrev hmid3 hs4
  cases hdwh : (dPart s0 ord v 0).head? with
  | none =>
    refine ⟨lvl, s4, hgen, hlvl, ?_, repOk_final hrep hlvl hmid4,
      hmid4.numLevels, hmid4.len, hmid4.nodesLen⟩
    simp only [insert_eq_steps hgen, allocState_numLevels, hloop, hdwh, hs4]
  | some j0 =>
    have hj0mem : j0 ∈ 0 :: ord := by
      have h9 : j0 ∈ dPart s0 ord v 0 := by
        cases hD : dPart s0 ord v 0 with
        | nil => rw [hD] at hdwh; simp at hdwh
        | cons a t =>
          rw [hD] at hdwh
          simp only [List.head?_cons, Option.some_inj] at hdwh
          simp [hdwh]
      exact List.mem_cons_of_mem 0 (dPart_subset_ord h9)
    obtain ⟨n4, hn4, _⟩ := getNode_isSome_of_nextLen (hmid4.lenOld j0 hj0mem)
    obtain ⟨s5, hs5⟩ := setPrev_isSome (some s0.nodes.length) hn4
    have hmid5 := midInv_setPrev hmid4 hs5
    refine ⟨lvl, s5, hgen, hlvl, ?_, repOk_final hrep hlvl hmid5,
      hmid5.numLevels, hmid5.len, hmid5.nodesLen⟩
    simp only [insert_eq_steps hgen, allocState_numLevels, hloop, hdwh, hs4, hs5]

theorem insertAll_spec [LinearOrder α] :
    ∀ (ops : List (α × Nat)) {s0 : SkipList α} {xs : List (α × Nat)}
    {ord : List Nat}, repOk s0 xs ord = true → s0.numLevels ≤ 64 →
    ∃ s' xs' ord', insertAll s0 ops = some s' ∧ repOk s' xs' ord' = true ∧
      s'.numLevels = s0.numLevels ∧ s'.len = s0.len ∧
      List.Perm (xs'.map Prod.fst) (xs.map Prod.fst ++ ops.map Prod.fst) := by
  intro ops
  induction ops with
  | nil =>
    intro s0 xs ord hrep hN
    exact ⟨s0, xs, ord, rfl, hrep, rfl, rfl, by simp⟩
  | cons p rest ih =>
    intro s0 xs ord hrep hN
    obtain ⟨v, rand⟩ := p
    obtain ⟨lvl, s1, hgen, hlvl, hins, hrep1, hnum1, hlen1, _⟩ :=
      insert_spec hrep hN v rand
    obtain ⟨s', xs', ord', hall, hrep', hnum', hlen', hperm⟩ :=
      ih hrep1 (by rw [hnum1]; exact hN)
    refine ⟨s', xs', ord', ?_, hrep', hnum'.trans hnum1, hlen'.trans hlen1, ?_⟩
    · simp only [insertAll, hins]
      exact hall
    · have h1 : List.Perm ((xs.take (cutLen xs v) ++
          (v, lvl) :: xs.drop (cutLen xs v)).map Prod.fst)
          (v :: xs.map Prod.fst) := by
        simp only [List.map_append, List.map_cons, List.map_take, List.map_drop]
        have h2 : List.Perm ((xs.map Prod.fst).take (cutLen xs v) ++
            v :: (xs.map Prod.fst).drop (cutLen xs v))
            (v :: ((xs.map Prod.fst).take (cutLen xs v) ++
              (xs.map Prod.fst).drop (cutLen xs v))) := List.perm_middle
        rwa [List.take_append_drop] at h2
      have h3 := hperm.trans (h1.append_right (rest.map Prod.fst))
      have h4 : List.Perm (xs.map Prod.fst ++ v :: rest.map Prod.fst)
          (v :: (xs.map Prod.fst ++ rest.map Prod.fst)) := List.perm_middle
      simp only [List.map_cons]
      exact h3.trans h4.symm

theorem repOk_new [LinearOrder α] {N : Nat} (h1 : 1 ≤ N) :
    ∃ s, new α N = some s ∧ repOk s [] [] = true ∧ s.numLevels = N ∧
      s.len = 0 ∧ s.nodes.length = 1 := by
  refine ⟨⟨N, [⟨N - 1, none, none, List.replicate N none⟩], 0⟩, ?_, ?_, rfl,
    rfl, rfl⟩
  · simp [new, new_head, checkedSub, h1]
  · rw [repOk_iff]
    refine ⟨h1, ?_, rfl, rfl, by simp, by simp, by simp, by simp, ?_⟩
    · rw [headOk_iff]
      refine ⟨rfl, rfl, ?_⟩
      simp [nextLenOf, getNode]
    · intro k hk
      have hsub : subAt (SkipList.mk (α := α) N
          [⟨N - 1, none, none, List.replicate N none⟩] 0) ([] : List Nat) k =
          [0] := by
        have hk2 : k < N := hk
        simp [subAt, levelOf, getNode]
        omega
      rw [hsub]
      simp [linkedAt, getNextLink, getNode, List.getElem?_replicate, hk]

theorem chainFrom_of_linkedAt {s : SkipList α} {k : Nat} :
    ∀ (rest : List Nat) (i fuel : Nat), linkedAt s k (i :: rest) = true →
    rest.length < fuel → chainFrom s k fuel i = some (i :: rest) := by
  intro rest
  induction rest with
  | nil =>
    intro i fuel hlink hfuel
    obtain ⟨fuel, rfl⟩ : ∃ f, fuel = f + 1 := ⟨fuel - 1, by omega⟩
    obtain ⟨hl, _⟩ := linkedAt_cons_iff.mp hlink
    simp only [List.head?_nil] at hl
    simp [chainFrom, hl]
  | cons j r ih =>
    intro i fuel hlink hfuel
    obtain ⟨fuel, rfl⟩ : ∃ f, fuel = f + 1 := ⟨fuel - 1, by omega⟩
    obtain ⟨hl, hlink'⟩ := linkedAt_cons_iff.mp hlink
    simp only [List.head?_cons] at hl
    simp only [chainFrom, hl]
    rw [ih j fuel hlink' (by simpa using hfuel)]

theorem rep_head_level [LinearOrder α] {s : SkipList α} {xs : List (α × Nat)}
    {ord : List Nat} (hrep : repOk s xs ord = true) :
    levelOf s 0 = s.numLevels - 1 :=
  (headOk_iff.mp (repOk_iff.mp hrep).2.1).2.1

theorem subAt_cons_form [LinearOrder α] {s : SkipList α}
    {xs : List (α × Nat)} {ord : List Nat} (hrep : repOk s xs ord = true)
    {k : Nat} (hk : k < s.numLevels) :
    subAt s ord k = 0 :: ord.filter (fun i => decide (k ≤ levelOf s i)) := by
  unfold subAt
  rw [List.filter_cons, if_pos]
  rw [rep_head_level hrep]
  have := (repOk_iff.mp hrep).1
  simp
  omega

theorem levelChain_eq [LinearOrder α] {s : SkipList α} {xs : List (α × Nat)}
    {ord : List Nat} (hrep : repOk s xs ord = true) {k : Nat}
    (hk : k < s.numLevels) :
    levelChain s k = some (subAt s ord k) := by
  unfold levelChain
  have hlink := (repOk_iff.mp hrep).2.2.2.2.2.2.2.2 k hk
  rw [subAt_cons_form hrep hk] at hlink ⊢
  apply chainFrom_of_linkedAt _ _ _ hlink
  have h1 := List.length_filter_le (fun i => decide (k ≤ levelOf s i)) ord
  have h2 : s.nodes.length = ord.length + 1 := (repOk_iff.mp hrep).2.2.2.1
  omega

theorem subAt_zero_eq [LinearOrder α] {s : SkipList α} {xs : List (α × Nat)}
    {ord : List Nat} (hrep : repOk s xs ord = true) :
    subAt s ord 0 = 0 :: ord := by
  unfold subAt
  exact List.filter_eq_self.mpr (fun a _ => by simp)

theorem filterMap_eq_map_of_zip {β γ : Type} (f : Nat → Option γ) (g : β → γ) :
    ∀ {l1 : List Nat} {l2 : List β}, l1.length = l2.length →
    (∀ p ∈ l1.zip l2, f p.1 = some (g p.2)) →
    l1.filterMap f = l2.map g := by
  intro l1
  induction l1 with
  | nil =>
    intro l2 hlen _
    cases l2 with
    | nil => rfl
    | cons b t2 => simp at hlen
  | cons a t ih =>
    intro l2 hlen hpt
    cases l2 with
    | nil => simp at hlen
    | cons b t2 =>
      have hab : f a = some (g b) := hpt (a, b) (by simp)
      rw [List.filterMap_cons, hab, List.map_cons]
      rw [ih (by simpa using hlen) (fun q hq => hpt q (by simp [hq]))]

theorem rep_baseVals [LinearOrder α] {s : SkipList α} {xs : List (α × Nat)}
    {ord : List Nat} (hrep : repOk s xs ord = true) :
    baseVals s = some (xs.map Prod.fst) := by
  have hN1 : 1 ≤ s.numLevels := (repOk_iff.mp hrep).1
  unfold baseVals
  rw [levelChain_eq hrep (by omega), subAt_zero_eq hrep]
  simp only [Option.map_some']
  congr 1
  rw [List.filterMap_cons]
  have hhd : valOf s 0 = none := (headOk_iff.mp (repOk_iff.mp hrep).2.1).1
  rw [hhd]
  exact filterMap_eq_map_of_zip (valOf s) Prod.fst (repOk_iff.mp hrep).2.2.1
    (fun p hp => (rep_zip_facts hrep p hp).1)

theorem rep_complete [LinearOrder α] {s : SkipList α} {xs : List (α × Nat)}
    {ord : List Nat} (hrep : repOk s xs ord = true) :
    ∀ i, i < s.nodes.length → i ∈ 0 :: ord := by
  intro i hi
  have hnodup : (0 :: ord).Nodup := (repOk_iff.mp hrep).2.2.2.2.1
  have hbound : ∀ a ∈ 0 :: ord, a < s.nodes.length :=
    (repOk_iff.mp hrep).2.2.2.2.2.1
  have hlen : s.nodes.length ≤ (0 :: ord).length := by
    have := (repOk_iff.mp hrep).2.2.2.1
    simp [this]
  have h1 : (0 :: ord).toFinset ⊆ Finset.range s.nodes.length := by
    intro x hx
    exact Finset.mem_range.mpr (hbound x (List.mem_toFinset.mp hx))
  have h2 : (Finset.range s.nodes.length).card ≤ (0 :: ord).toFinset.card := by
    rw [List.toFinset_card_of_nodup hnodup, Finset.card_range]
    exact hlen
  have heq := Finset.eq_of_subset_of_card_le h1 h2
  exact List.mem_toFinset.mp (heq ▸ Finset.mem_range.mpr hi)

theorem takeWhile_eq_take_len {β : Type} (p : β → Bool) :
    ∀ (l : List β), l.takeWhile p = l.take (l.takeWhile p).length := by
  intro l
  induction l with
  | nil => rfl
  | cons a t ih =>
    by_cases ha : p a
    · rw [List.takeWhile_cons, if_pos ha]
      simp only [List.length_cons, List.take_succ_cons]
      rw [← ih]
    · rw [List.takeWhile_cons, if_neg ha]
      rfl

theorem dropWhile_eq_drop_len {β : Type} (p : β → Bool) (l : List β) :
    l.dropWhile p = l.drop (l.takeWhile p).length := by
  have h1 : l.takeWhile p ++ l.dropWhile p = l :=
    List.takeWhile_append_dropWhile _ _
  have h2 : l.take (l.takeWhile p).length ++
      l.drop (l.takeWhile p).length = l := List.take_append_drop _ l
  rw [← takeWhile_eq_take_len p l] at h2
  exact List.append_cancel_left (h1.trans h2.symm)

theorem sorted_dropWhile_not_le [LinearOrder α] :
    ∀ {l : List α}, l.Pairwise (· ≤ ·) → ∀ (t : α),
    ∀ x ∈ l.dropWhile (fun a => decide (a ≤ t)), ¬ x ≤ t := by
  intro l
  induction l with
  | nil => intro _ t x hx; simp at hx
  | cons a tl ih =>
    intro hs t x hx
    obtain ⟨hle, hs'⟩ := List.pairwise_cons.mp hs
    by_cases hat : a ≤ t
    · rw [List.dropWhile_cons, if_pos (by simpa using hat)] at hx
      exact ih hs' t x hx
    · rw [List.dropWhile_cons, if_neg (by simpa using hat)] at hx
      rcases List.mem_cons.mp hx with rfl | hx
      · exact hat
      · exact fun hxt => hat (le_trans (hle x hx) hxt)

theorem getD_drop_eq {β : Type} (d : β) :
    ∀ (P : Nat) (l : List β) (m : Nat), P ≤ m →
    (l.drop P).getD (m - P) d = l.getD m d := by
  intro P
  induction P with
  | zero => intro l m _; simp
  | succ P ih =>
    intro l m hPm
    cases l with
    | nil => simp
    | cons a t =>
      obtain ⟨m', rfl⟩ : ∃ m', m = m' + 1 := ⟨m - 1, by omega⟩
      simp only [List.drop_succ_cons, List.getD_cons_succ,
        Nat.succ_sub_succ]
      exact ih t m' (by omega)

theorem getD_mem_drop {β : Type} {l : List β} {m P : Nat} (hm : m < l.length)
    (hP : P ≤ m) (d : β) : l.getD m d ∈ l.drop P := by
  rw [← getD_drop_eq d P l m hP]
  apply getD_mem_of_lt
  simp only [List.length_drop]
  omega

theorem sorted_getD_le_iff [LinearOrder α] {l : List α}
    (hs : l.Pairwise (· ≤ ·)) (t : α) {m : Nat} (hm : m < l.length) (d : α) :
    l.getD m d ≤ t ↔ m < (l.takeWhile (fun a => decide (a ≤ t))).length := by
  constructor
  · intro hle
    by_contra hged
    push_neg at hged
    have hmem : l.getD m d ∈
        l.drop (l.takeWhile (fun a => decide (a ≤ t))).length :=
      getD_mem_drop hm hged d
    rw [← dropWhile_eq_drop_len] at hmem
    exact (sorted_dropWhile_not_le hs t _ hmem) hle
  · intro hlt
    have h1 : l.getD m d = (l.takeWhile (fun a => decide (a ≤ t))).getD m d :=
      (takeWhile_getD _ l m hlt d).symm
    rw [h1]
    have hmem := getD_mem_of_lt hlt d
    have h2 := List.mem_takeWhile_imp hmem
    simpa using h2

theorem sorted_two_count_earlier [LinearOrder α] :
    ∀ {l : List α}, l.Pairwise (· ≤ ·) → ∀ {v : α}, 2 ≤ l.count v →
    ∃ m, m + 1 < (l.takeWhile (fun a => decide (a ≤ v))).length ∧
      l.getD m v = v := by
  intro l
  induction l with
  | nil => intro _ v h2; simp at h2
  | cons a t ih =>
    intro hs v h2
    obtain ⟨hle, hs'⟩ := List.pairwise_cons.mp hs
    by_cases hav : a = v
    · subst hav
      have ht1 : 1 ≤ t.count a := by
        rw [List.count_cons_self] at h2
        omega
      have hvt : a ∈ t := List.count_pos_iff.mp (by omega)
      have hpos := (sorted_last_le_eq hs' hvt).1
      refine ⟨0, ?_, rfl⟩
      rw [List.takeWhile_cons, if_pos (by simp)]
      simp only [List.length_cons]
      omega
    · have h2' : 2 ≤ t.count v := by
        rw [List.count_cons_of_ne (Ne.symm hav)] at h2
        exact h2
      have hvt : v ∈ t := List.count_pos_iff.mp (by omega)
      have hav2 : a ≤ v := hle v hvt
      obtain ⟨m', hm1, hm2⟩ := ih hs' h2'
      refine ⟨m' + 1, ?_, by simpa using hm2⟩
      rw [List.takeWhile_cons, if_pos (by simpa using hav2)]
      simp only [List.length_cons]
      omega

/-- C1: for every finite sequence of values inserted into a list
constructed with a valid `NUM_LEVELS ≥ 1` (and within the 64-bit word
width the level generator draws from), every inserted value `v` satisfies
`contains(&v) == true` once the whole sequence of insertions has
completed. -/
theorem claim_C1_inserted_values_contained [LinearOrder α] {N : Nat}
    (h1 : 1 ≤ N) (h64 : N ≤ 64) (ops : List (α × Nat)) {v : α}
    (hv : v ∈ ops.map Prod.fst) :
    ∃ s0 s, new α N = some s0 ∧ insertAll s0 ops = some s ∧
      contains s v = some true := by
  obtain ⟨s0, hnew, hrep0, hnum0, _, _⟩ := repOk_new (α := α) h1
  obtain ⟨s, xs, ord, hall, hrep, _, _, hperm⟩ :=
    insertAll_spec ops hrep0 (by rw [hnum0]; exact h64)
  refine ⟨s0, s, hnew, hall, ?_⟩
  have hvmem : v ∈ xs.map Prod.fst := by
    rw [hperm.mem_iff]
    simpa using hv
  have hsort : (xs.map Prod.fst).Pairwise (· ≤ ·) :=
    List.pairwise_map.mpr (repOk_iff.mp hrep).2.2.2.2.2.2.2.1
  obtain ⟨hpos, hlast⟩ := sorted_last_le_eq hsort hvmem
  have hcut : 0 < cutLen xs v := hpos
  obtain ⟨hval, hfind⟩ := find_eq_of_cut_pos hrep hcut
  have hm : cutLen xs v - 1 < xs.length := by
    have := cutLen_le xs v
    omega
  have hveq : (xs.getD (cutLen xs v - 1) (v, 0)).1 = v := by
    rw [← getD_map_fst hm v]
    exact hlast
  have hveq' := hveq
  rw [List.getD_eq_getElem?_getD] at hveq'
  simp [contains, hfind, hveq, hveq']

/-- Witness for C1 at a concrete run: `NUM_LEVELS = 3`, inserting 5 then 1,
then asking for 1. -/
theorem claim_C1_witness :
    (1 : Int) ∈ ([(5, 0), (1, 1)] : List (Int × Nat)).map Prod.fst ∧
    ∃ s0 s, new Int 3 = some s0 ∧
      insertAll s0 [(5, 0), (1, 1)] = some s ∧ contains s 1 = some true :=
  ⟨by decide, claim_C1_inserted_values_contained (by decide) (by decide)
    [(5, 0), (1, 1)] (by decide)⟩

/-- C2: the claim says one call to `insert` increments the `len` field by
exactly one; the code never touches `len`, so after inserting into a fresh
two-level list the counter still reads 0 instead of 1. -/
theorem claim_C2_len_never_incremented :
    ((new Int 2).bind (fun s => insert s 5 0)).map SkipList.len = some 0 ∧
    (new Int 2).map SkipList.len = some 0 := by
  exact ⟨by decide, by decide⟩

/-- Counterexample to C3 as stated: with `NUM_LEVELS = 65`, which exceeds
the 64-bit machine word width used by the level generator, construction
nevertheless succeeds — `new` performs no bounds check at all. -/
theorem claim_C3_counterexample : (new Int 65).isSome = true := by decide

/-- C3 (amended): construction fails fatally only for `NUM_LEVELS = 0`
(computing the head sentinel level underflows in a debug build); for every
`NUM_LEVELS ≥ 1`, including values exceeding the 64-bit word width,
construction succeeds and yields an empty list whose valueless head
sentinel has tower height `NUM_LEVELS - 1`; an oversized `NUM_LEVELS`
instead makes the first `insert` fail fatally inside `gen_level`. -/
theorem claim_C3_amended (α : Type) [LinearOrder α] :
    new α 0 = none ∧
    (∀ N, 1 ≤ N → new α N =
      some ⟨N, [⟨N - 1, none, none, List.replicate N none⟩], 0⟩) ∧
    (∀ N, 64 < N → ∀ s : SkipList α, new α N = some s →
      ∀ (v : α) (rand : Nat), insert s v rand = none) := by
  have hmk : ∀ N, 1 ≤ N → new α N =
      some ⟨N, [⟨N - 1, none, none, List.replicate N none⟩], 0⟩ := by
    intro N hN
    simp [new, new_head, checkedSub, hN]
  refine ⟨rfl, hmk, ?_⟩
  intro N hN s hs v rand
  rw [hmk N (by omega)] at hs
  obtain rfl : _ = s := Option.some_injective _ hs
  have hgen : gen_level N rand = none := by
    simp [gen_level, checkedSub, checkedShl1, show 1 ≤ N by omega,
      show ¬ N - 1 < 64 by omega]
  simp [insert, hgen]

/-- C4: on every well-formed list state, `find_node` lands on the
positionally rightmost base-chain node whose value is `≤` the target (the
node at base position `cutLen - 1`), and on the valueless head sentinel
when no stored value is `≤` the target; a stored value is `≤` the target
exactly when its base position lies below `cutLen`. -/
theorem claim_C4_find_node_rightmost [LinearOrder α] {s : SkipList α}
    {xs : List (α × Nat)} {ord : List Nat} (hrep : repOk s xs ord = true)
    (t : α) :
    find_node s t = some (if cutLen xs t = 0 then 0
      else ord.getD (cutLen xs t - 1) 0) ∧
    (∀ m, m < xs.length → ((xs.getD m (t, 0)).1 ≤ t ↔ m < cutLen xs t)) ∧
    valOf s 0 = none := by
  refine ⟨find_node_positional hrep t, ?_, ?_⟩
  · intro m hm
    have hsort : (xs.map Prod.fst).Pairwise (· ≤ ·) :=
      List.pairwise_map.mpr (repOk_iff.mp hrep).2.2.2.2.2.2.2.1
    have h1 := sorted_getD_le_iff hsort t (m := m) (by simpa using hm) t
    rw [getD_map_fst hm t] at h1
    exact h1
  · exact (headOk_iff.mp (repOk_iff.mp hrep).2.1).1

/-- A two-element well-formed heap used by concrete witnesses: value 5 at
index 1 with height 0, value 7 at index 2 with height 1, two levels. -/
def sampleS : SkipList Int :=
  ⟨2, [⟨1, none, none, [some 1, some 2]⟩,
       ⟨0, some 5, some 0, [some 2, none]⟩,
       ⟨1, some 7, some 1, [none, none]⟩], 0⟩

/-- Witness for C4 on the concrete two-element state, target 6. -/
theorem claim_C4_witness :
    repOk sampleS [((5 : Int), 0), (7, 1)] [1, 2] = true ∧
    (find_node sampleS 6 = some (if cutLen [((5 : Int), 0), (7, 1)] 6 = 0
        then 0 else ([1, 2] : List Nat).getD
          (cutLen [((5 : Int), 0), (7, 1)] 6 - 1) 0) ∧
      (∀ m, m < ([((5 : Int), 0), (7, 1)] : List (Int × Nat)).length →
        ((([((5 : Int), 0), (7, 1)] : List (Int × Nat)).getD m (6, 0)).1 ≤ 6 ↔
          m < cutLen [((5 : Int), 0), (7, 1)] 6)) ∧
      valOf sampleS 0 = none) :=
  ⟨by decide, claim_C4_find_node_rightmost (by decide) 6⟩

/-- C5: after every finite sequence of insertions on a freshly constructed
list, following the level-0 forward chain from the head sentinel collects
every inserted element exactly once (a permutation of the inserted values)
in non-decreasing order. -/
theorem claim_C5_base_chain_sorted_perm [LinearOrder α] {N : Nat}
    (h1 : 1 ≤ N) (h64 : N ≤ 64) (ops : List (α × Nat)) :
    ∃ s0 s L, new α N = some s0 ∧ insertAll s0 ops = some s ∧
      baseVals s = some L ∧ List.Perm L (ops.map Prod.fst) ∧
      L.Pairwise (· ≤ ·) := by
  obtain ⟨s0, hnew, hrep0, hnum0, _, _⟩ := repOk_new (α := α) h1
  obtain ⟨s, xs, ord, hall, hrep, _, _, hperm⟩ :=
    insertAll_spec ops hrep0 (by rw [hnum0]; exact h64)
  refine ⟨s0, s, xs.map Prod.fst, hnew, hall, rep_baseVals hrep, ?_, ?_⟩
  · simpa using hperm
  · exact List.pairwise_map.mpr (repOk_iff.mp hrep).2.2.2.2.2.2.2.1

/-- Witness for C5 at a concrete run with four insertions. -/
theorem claim_C5_witness :
    ∃ s0 s L, new Int 3 = some s0 ∧
      insertAll s0 [(5, 0), (1, 1), (9, 3), (3, 0)] = some s ∧
      baseVals s = some L ∧
      List.Perm L (([(5, 0), (1, 1), (9, 3), (3, 0)] :
        List (Int × Nat)).map Prod.fst) ∧
      L.Pairwise (· ≤ ·) :=
  claim_C5_base_chain_sorted_perm (by decide) (by decide)
    [(5, 0), (1, 1), (9, 3), (3, 0)]

/-- C6: after every finite sequence of insertions, an element node of tower
height `h` lies on the level-`k` forward chain from the head exactly for
`k ≤ h`, and every forward-link entry above its height is absent (null). -/
theorem claim_C6_reachability_matches_height [LinearOrder α] {N : Nat}
    (h1 : 1 ≤ N) (h64 : N ≤ 64) (ops : List (α × Nat)) :
    ∃ s0 s, new α N = some s0 ∧ insertAll s0 ops = some s ∧
      ∀ i, 1 ≤ i → i < s.nodes.length →
        (∀ k, k < s.numLevels →
          ∃ L, levelChain s k = some L ∧ (i ∈ L ↔ k ≤ levelOf s i)) ∧
        (∀ j, j < s.numLevels → levelOf s i < j →
          getNextLink s i j = some none) := by
  obtain ⟨s0, hnew, hrep0, hnum0, _, _⟩ := repOk_new (α := α) h1
  obtain ⟨s, xs, ord, hall, hrep, _, _, _⟩ :=
    insertAll_spec ops hrep0 (by rw [hnum0]; exact h64)
  refine ⟨s0, s, hnew, hall, ?_⟩
  intro i hi1 hilen
  have himem : i ∈ 0 :: ord := rep_complete hrep i hilen
  constructor
  · intro k hk
    refine ⟨subAt s ord k, levelChain_eq hrep hk, ?_, ?_⟩
    · intro hmem
      have h5 := List.mem_filter.mp hmem
      simpa using h5.2
    · intro hlev
      exact List.mem_filter.mpr ⟨himem, by simpa using hlev⟩
  · intro j hj hlev
    exact rep_aboveNone hrep himem hj hlev

/-- Witness for C6 at a concrete run with four insertions. -/
theorem claim_C6_witness :
    ∃ s0 s, new Int 3 = some s0 ∧
      insertAll s0 [(5, 0), (1, 1), (9, 3), (3, 0)] = some s ∧
      ∀ i, 1 ≤ i → i < s.nodes.length →
        (∀ k, k < s.numLevels →
          ∃ L, levelChain s k = some L ∧ (i ∈ L ↔ k ≤ levelOf s i)) ∧
        (∀ j, j < s.numLevels → levelOf s i < j →
          getNextLink s i j = some none) :=
  claim_C6_reachability_matches_height (by decide) (by decide)
    [(5, 0), (1, 1), (9, 3), (3, 0)]

/-- C7: `gen_level` returns the count of trailing one-bits of the drawn
64-bit word masked to its low `NUM_LEVELS - 1` bits; the result always lies
in `[0, NUM_LEVELS - 1]` and saturates at `NUM_LEVELS - 1` exactly when all
masked low bits are ones. -/
theorem claim_C7_gen_level {N : Nat} (h1 : 1 ≤ N) (h64 : N ≤ 64)
    (rand : Nat) :
    gen_level N rand =
      some (trailingOnes ((rand % 2 ^ 64) &&& (2 ^ (N - 1) - 1))) ∧
    ∀ lvl, gen_level N rand = some lvl →
      lvl ≤ N - 1 ∧
      (lvl = N - 1 ↔
        (rand % 2 ^ 64) &&& (2 ^ (N - 1) - 1) = 2 ^ (N - 1) - 1) := by
  refine ⟨gen_level_eq h1 h64 rand, ?_⟩
  intro lvl hlvl
  rw [gen_level_eq h1 h64 rand] at hlvl
  obtain rfl : _ = lvl := Option.some_injective _ hlvl
  have hmask : (rand % 2 ^ 64) &&& (2 ^ (N - 1) - 1) < 2 ^ (N - 1) := by
    have h3 := Nat.and_le_right (n := rand % 2 ^ 64) (m := 2 ^ (N - 1) - 1)
    have hpow : 1 ≤ 2 ^ (N - 1) := Nat.one_le_two_pow
    omega
  exact trailingOnes_bound (N - 1) _ hmask

/-- Witness for C7 at `NUM_LEVELS = 3` and the word 7 (both low bits set,
so the level saturates at 2). -/
theorem claim_C7_witness :
    gen_level 3 7 =
      some (trailingOnes ((7 % 2 ^ 64) &&& (2 ^ (3 - 1) - 1))) ∧
    ∀ lvl, gen_level 3 7 = some lvl →
      lvl ≤ 3 - 1 ∧
      (lvl = 3 - 1 ↔ (7 % 2 ^ 64) &&& (2 ^ (3 - 1) - 1) = 2 ^ (3 - 1) - 1) :=
  claim_C7_gen_level (by decide) (by decide) 7

/-- C8: on every well-formed list whose stored pairs contain the value `v`
at least twice, `find_node` with target `v` lands on the positionally last
base-chain node whose value equals `v` (every later node stores a different
value, while some strictly earlier node also stores `v`), and `find`
returns that node's stored value. -/
theorem claim_C8_duplicates_last_wins [LinearOrder α] {s : SkipList α}
    {xs : List (α × Nat)} {ord : List Nat} (hrep : repOk s xs ord = true)
    {v : α} (hdup : 2 ≤ (xs.map Prod.fst).count v) :
    0 < cutLen xs v ∧
    find_node s v = some (ord.getD (cutLen xs v - 1) 0) ∧
    valOf s (ord.getD (cutLen xs v - 1) 0) = some v ∧
    (∀ m, cutLen xs v ≤ m → m < xs.length → (xs.getD m (v, 0)).1 ≠ v) ∧
    (∃ m, m + 1 < cutLen xs v ∧ (xs.getD m (v, 0)).1 = v) ∧
    find s v = some (some v) := by
  have hsort : (xs.map Prod.fst).Pairwise (· ≤ ·) :=
    List.pairwise_map.mpr (repOk_iff.mp hrep).2.2.2.2.2.2.2.1
  have hvmem : v ∈ xs.map Prod.fst :=
    List.count_pos_iff.mp (by omega)
  obtain ⟨hpos, hlast⟩ := sorted_last_le_eq hsort hvmem
  have hcut : 0 < cutLen xs v := hpos
  have hmlt : cutLen xs v - 1 < xs.length := by
    have := cutLen_le xs v
    omega
  have hveq : (xs.getD (cutLen xs v - 1) (v, 0)).1 = v := by
    rw [← getD_map_fst hmlt v]
    exact hlast
  obtain ⟨hval, hfind⟩ := find_eq_of_cut_pos hrep hcut
  refine ⟨hcut, ?_, ?_, ?_, ?_, ?_⟩
  · have h5 := find_node_positional hrep v
    rwa [if_neg (by omega)] at h5
  · rw [hval, hveq]
  · intro m hm1 hm2 heq
    have h1 : (xs.getD m (v, 0)).1 ≤ v := le_of_eq heq
    rw [← getD_map_fst hm2 v] at h1
    have h2 := (sorted_getD_le_iff hsort v (by simpa using hm2) v).mp h1
    have h3 : m < cutLen xs v := h2
    omega
  · obtain ⟨m, hm1, hm2⟩ := sorted_two_count_earlier hsort hdup
    have hm1' : m + 1 < cutLen xs v := hm1
    refine ⟨m, hm1', ?_⟩
    have hmlen : m < xs.length := by
      have h5 := cutLen_le xs v
      omega
    rw [← getD_map_fst hmlen v]
    exact hm2
  · rw [hfind, hveq]
    simp

/-- A three-duplicate well-formed heap: the value 5 stored three times, at
indices 1, 2, 3 with heights 0, 1, 0, three levels. -/
def sampleDup : SkipList Int :=
  ⟨3, [⟨2, none, none, [some 1, some 2, none]⟩,
       ⟨0, some 5, some 0, [some 2, none, none]⟩,
       ⟨1, some 5, some 1, [some 3, none, none]⟩,
       ⟨0, some 5, some 2, [none, none, none]⟩], 0⟩

/-- Witness for C8 on the concrete duplicate-heavy state. -/
theorem claim_C8_witness :
    repOk sampleDup [((5 : Int), 0), (5, 1), (5, 0)] [1, 2, 3] = true ∧
    2 ≤ (([((5 : Int), 0), (5, 1), (5, 0)] :
      List (Int × Nat)).map Prod.fst).count 5 ∧
    (0 < cutLen [((5 : Int), 0), (5, 1), (5, 0)] 5 ∧
      find_node sampleDup 5 = some (([1, 2, 3] : List Nat).getD
        (cutLen [((5 : Int), 0), (5, 1), (5, 0)] 5 - 1) 0) ∧
      valOf sampleDup (([1, 2, 3] : List Nat).getD
        (cutLen [((5 : Int), 0), (5, 1), (5, 0)] 5 - 1) 0) = some 5 ∧
      (∀ m, cutLen [((5 : Int), 0), (5, 1), (5, 0)] 5 ≤ m →
        m < ([((5 : Int), 0), (5, 1), (5, 0)] : List (Int × Nat)).length →
        (([((5 : Int), 0), (5, 1), (5, 0)] :
          List (Int × Nat)).getD m (5, 0)).1 ≠ 5) ∧
      (∃ m, m + 1 < cutLen [((5 : Int), 0), (5, 1), (5, 0)] 5 ∧
        (([((5 : Int), 0), (5, 1), (5, 0)] :
          List (Int × Nat)).getD m (5, 0)).1 = 5) ∧
      find sampleDup 5 = some (some 5)) :=
  ⟨by decide, by decide, claim_C8_duplicates_last_wins (by decide) (by decide)⟩

/-- C9: along any sequence of public-API calls on a list configured with a
valid `NUM_LEVELS`, every level index handed to the node layer stays in
range, so no level assertion fires: construction and every insertion
succeed, and the lookup operations return values rather than panic. -/
theorem claim_C9_no_assert_fires [LinearOrder α] {N : Nat} (h1 : 1 ≤ N)
    (h64 : N ≤ 64) (ops : List (α × Nat)) :
    ∃ s0 s, new α N = some s0 ∧ insertAll s0 ops = some s ∧
      (∀ t : α, (find_node s t).isSome ∧ (find s t).isSome ∧
        (contains s t).isSome) ∧
      (∀ (w : α) (r : Nat), (insert s w r).isSome) := by
  obtain ⟨s0, hnew, hrep0, hnum0, _, _⟩ := repOk_new (α := α) h1
  obtain ⟨s, xs, ord, hall, hrep, hnum, _, _⟩ :=
    insertAll_spec ops hrep0 (by rw [hnum0]; exact h64)
  refine ⟨s0, s, hnew, hall, ?_, ?_⟩
  · intro t
    refine ⟨?_, ?_, ?_⟩
    · rw [find_node_formula hrep t]
      rfl
    · by_cases hc : cutLen xs t = 0
      · rw [(find_eq_of_cut_zero hrep hc).1]
        rfl
      · rw [(find_eq_of_cut_pos hrep (by omega)).2]
        rfl
    · by_cases hc : cutLen xs t = 0
      · rw [(find_eq_of_cut_zero hrep hc).2]
        rfl
      · simp [contains, (find_eq_of_cut_pos hrep (by omega : 0 < cutLen xs t)).2]
  · intro w r
    obtain ⟨lvl, s', _, _, hins, _, _, _, _⟩ :=
      insert_spec hrep (by rw [hnum, hnum0]; exact h64) w r
    rw [hins]
    rfl

/-- Witness for C9 at a concrete run. -/
theorem claim_C9_witness :
    ∃ s0 s, new Int 3 = some s0 ∧
      insertAll s0 [(5, 0), (1, 1)] = some s ∧
      (∀ t : Int, (find_node s t).isSome ∧ (find s t).isSome ∧
        (contains s t).isSome) ∧
      (∀ (w : Int) (r : Nat), (insert s w r).isSome) :=
  claim_C9_no_assert_fires (by decide) (by decide) [(5, 0), (1, 1)]

/-- C10: on a freshly constructed list with any valid `NUM_LEVELS ≥ 1`,
`find` returns `None` and `contains` returns `false` for every value: the
traversal lands on the valueless head sentinel and absence is an ordinary
not-found result, not a failure. -/
theorem claim_C10_empty_list_lookup [LinearOrder α] {N : Nat} (h1 : 1 ≤ N)
    (v : α) :
    ∃ s, new α N = some s ∧ find s v = some none ∧
      contains s v = some false ∧ find_node s v = some 0 ∧
      valOf s 0 = none := by
  obtain ⟨s, hnew, hrep, _, _, _⟩ := repOk_new (α := α) h1
  have hcut : cutLen ([] : List (α × Nat)) v = 0 := rfl
  obtain ⟨hf, hc⟩ := find_eq_of_cut_zero hrep hcut
  refine ⟨s, hnew, hf, hc, ?_, ?_⟩
  · have h5 := find_node_positional hrep v
    rwa [hcut, if_pos rfl] at h5
  · exact (headOk_iff.mp (repOk_iff.mp hrep).2.1).1

/-- Witness for C10 with three levels and the value 5. -/
theorem claim_C10_witness :
    ∃ s, new Int 3 = some s ∧ find s 5 = some none ∧
      contains s 5 = some false ∧ find_node s 5 = some 0 ∧
      valOf s 0 = none :=
  claim_C10_empty_list_lookup (by decide) 5

end SkipListModel
